import Mathlib

/-!
# Verification of the NMScripts food-recipes core

A shallow embedding, in Lean 4, of the ingredient-resolution and recipe-suggestion
engine of `cmd/food-recipes/main.go` and of its variant in `src/unnamed/part_001`
(both are `package main` programs sharing the same algorithms).

Modelling conventions:
* A Go string is modelled by its sequence of runes (Unicode code points): `Str := List Char`.
  All relevant Go operations (the rune loop of `normKey`, the rune slices of `lev`,
  `strings.Fields`, `strings.Contains` on valid UTF-8) act at rune granularity.
* The Go `unicode` character classes and case mapping are modelled on their ASCII
  fragment (`goIsLetter`, `goIsNumber`, `goIsSpace`, `goIsPunct`, `goToLower`);
  combining marks (`Mn`) do not occur in ASCII, so `goIsMn` is constantly false.
* Go maps are modelled as functions (`Str → Option _`, `Str → List Nat`); a missing
  key of `ingIndex` is the Go `nil` slice, i.e. `[]`.
* The `float64` scores in the fuzzy matcher are all integer multiples of one half
  (distances, halved distances, `math.MaxFloat64`), on which float64 arithmetic is
  exact; they are embedded exactly as natural numbers counting half-units (see `Score`).
* CSV reading (`csv.ReadAll`) is the concern of the caller: `loadCSV` takes the read
  result, an `Except String (List (List Str))`, and propagates read errors.
-/

/-- A Go string, viewed as its sequence of runes (Unicode code points). -/
abbrev Str := List Char

/-- ASCII fragment of the Go `unicode.IsSpace` (also the runes that
`strings.TrimSpace` and `strings.Fields` split on): space, tab, newline,
vertical tab, form feed, carriage return. -/
def goIsSpace (c : Char) : Bool :=
  c = ' ' || c = '\t' || c = '\n' || c = (Char.ofNat 11) || c = (Char.ofNat 12) || c = '\r'

/-- ASCII fragment of the Go `unicode.IsLetter`. -/
def goIsLetter (c : Char) : Bool :=
  ('a' ≤ c && c ≤ 'z') || ('A' ≤ c && c ≤ 'Z')

/-- ASCII fragment of the Go `unicode.IsNumber`. -/
def goIsNumber (c : Char) : Bool :=
  '0' ≤ c && c ≤ '9'

/-- ASCII fragment of the Go `unicode.IsPunct` (Unicode categories Pc/Pd/Ps/Pe/Pi/Pf/Po
restricted to ASCII; the runes dollar, plus, less, equal, greater, caret, backquote,
bar and tilde are Unicode symbols, not punctuation). -/
def goIsPunct (c : Char) : Bool :=
  c = '!' || c = '"' || c = '#' || c = '%' || c = '&' || c = '\'' || c = '(' ||
  c = ')' || c = '*' || c = ',' || c = '-' || c = '.' || c = '/' || c = ':' ||
  c = ';' || c = '?' || c = '@' || c = '[' || c = '\\' || c = ']' || c = '_' ||
  c = '{' || c = '}'

/-- ASCII has no combining marks, so the ASCII fragment of `unicode.Is(unicode.Mn, ·)`
is constantly false. -/
def goIsMn (_ : Char) : Bool := false

/-- ASCII fragment of the Go `unicode.ToLower` (also `strings.ToLower` per rune). -/
def goToLower (c : Char) : Char :=
  if 'A' ≤ c && c ≤ 'Z' then Char.ofNat (c.toNat + 32) else c

/-- The Go `strings.ToLower`. -/
def goStringsToLower (s : Str) : Str := s.map goToLower

/-- The Go `strings.TrimSpace`: drop whitespace from both ends. -/
def trimSpace (s : Str) : Str :=
  ((s.dropWhile goIsSpace).reverse.dropWhile goIsSpace).reverse

/-- One step of splitting a rune sequence at whitespace (processed by `foldr`,
i.e. right to left); an empty segment is produced at each whitespace rune. -/
def fieldsStep (c : Char) : List Str → List Str
  | [] => if goIsSpace c then [[]] else [[c]]
  | w :: ws => if goIsSpace c then [] :: w :: ws else (c :: w) :: ws

/-- The Go `strings.Fields`: the maximal whitespace-free runs of `s`, in order. -/
def fields (s : Str) : List Str :=
  (s.foldr fieldsStep [[]]).filter (fun w => w ≠ [])

/-- The Go `strings.Join(ws, " ")` on rune sequences. -/
def joinSpace (ws : List Str) : Str := List.intercalate [' '] ws

/-- The function `normKey` of `src/unnamed/part_001` with the retained-rune predicate
abstracted: lower-case the trimmed string, drop combining marks, keep only runes
satisfying `keep` (lower-cased once more, as written in the source), then collapse
whitespace runs to single spaces via `Fields` + `Join`. -/
def normKeyWith (keep : Char → Bool) (s : Str) : Str :=
  let s1 := goStringsToLower (trimSpace s)
  let b := s1.filterMap (fun r =>
    if goIsMn r then none
    else if keep r then some (goToLower r) else none)
  joinSpace (fields b)

/-- Retained runes of `normKey` in `src/unnamed/part_001`:
letters, numbers, whitespace and punctuation. -/
def keepPunct (c : Char) : Bool :=
  goIsLetter c || goIsNumber c || goIsSpace c || goIsPunct c

/-- Retained runes of `normKey` in `cmd/food-recipes/main.go`:
letters, numbers and whitespace only. -/
def keepNoPunct (c : Char) : Bool :=
  goIsLetter c || goIsNumber c || goIsSpace c

/-- The `normKey` of `src/unnamed/part_001` (retains punctuation). -/
def normKey (s : Str) : Str := normKeyWith keepPunct s

/-- The `normKey` of `cmd/food-recipes/main.go` (drops punctuation). -/
def normKeyND (s : Str) : Str := normKeyWith keepNoPunct s

/-- Boolean lexicographic strict order on rune sequences: the order
`sort.Strings` uses (bytewise on UTF-8 = pointwise on code points). -/
def strLt : Str → Str → Bool
  | [], [] => false
  | [], _ :: _ => true
  | _ :: _, [] => false
  | a :: as, b :: bs => if a < b then true else if b < a then false else strLt as bs

/-- The sort order used for `AllIngredients` (`sort.Strings`): lexicographic `≤`. -/
def strLeP (a b : Str) : Prop := strLt b a = false

instance : DecidableRel strLeP := fun a b => by
  unfold strLeP; infer_instance

theorem strLt_asymm : ∀ a b : Str, strLt a b = true → strLt b a = false := by
  intro a
  induction a with
  | nil =>
    intro b h
    cases b with
    | nil => simp [strLt] at h
    | cons y ys => simp [strLt]
  | cons x xs ih =>
    intro b h
    cases b with
    | nil => simp [strLt] at h
    | cons y ys =>
      rcases lt_trichotomy x y with hxy | hxy | hxy
      · simp [strLt, hxy, asymm hxy]
      · subst hxy
        simp only [strLt, lt_irrefl, if_false] at h ⊢
        exact ih ys h
      · simp [strLt, hxy, asymm hxy] at h

theorem strLt_trans : ∀ a b c : Str,
    strLt a b = true → strLt b c = true → strLt a c = true := by
  intro a
  induction a with
  | nil =>
    intro b c hab hbc
    cases b with
    | nil => simp [strLt] at hab
    | cons y ys =>
      cases c with
      | nil => simp [strLt] at hbc
      | cons z zs => simp [strLt]
  | cons x xs ih =>
    intro b c hab hbc
    cases b with
    | nil => simp [strLt] at hab
    | cons y ys =>
      cases c with
      | nil => simp [strLt] at hbc
      | cons z zs =>
        rcases lt_trichotomy x y with hxy | hxy | hxy
        · rcases lt_trichotomy y z with hyz | hyz | hyz
          · simp [strLt, lt_trans hxy hyz]
          · subst hyz; simp [strLt, hxy]
          · simp [strLt, hyz, asymm hyz] at hbc
        · subst hxy
          rcases lt_trichotomy x z with hxz | hxz | hxz
          · simp [strLt, hxz]
          · subst hxz
            simp only [strLt, lt_irrefl, if_false] at hab hbc ⊢
            exact ih _ _ hab hbc
          · simp [strLt, hxz, asymm hxz] at hbc
        · simp [strLt, hxy, asymm hxy] at hab

theorem strLt_irrefl : ∀ a : Str, strLt a a = false := by
  intro a
  induction a with
  | nil => rfl
  | cons x xs ih => simp [strLt, ih]

theorem strLt_connex : ∀ a b : Str, a ≠ b → strLt a b = true ∨ strLt b a = true := by
  intro a
  induction a with
  | nil =>
    intro b hb
    cases b with
    | nil => exact absurd rfl hb
    | cons y ys => left; simp [strLt]
  | cons x xs ih =>
    intro b hb
    cases b with
    | nil => right; simp [strLt]
    | cons y ys =>
      rcases lt_trichotomy x y with hxy | hxy | hxy
      · left; simp [strLt, hxy]
      · subst hxy
        have hxs : xs ≠ ys := fun h => hb (by rw [h])
        rcases ih ys hxs with h | h
        · left; simp [strLt, h]
        · right; simp [strLt, h]
      · right; simp [strLt, hxy]

instance : IsTotal Str strLeP where
  total a b := by
    unfold strLeP
    by_cases h : a = b
    · subst h; left; exact strLt_irrefl a
    · rcases strLt_connex a b h with h' | h'
      · left; exact strLt_asymm a b h'
      · right; exact strLt_asymm b a h'

instance : IsTrans Str strLeP where
  trans a b c hab hbc := by
    unfold strLeP at *
    by_contra hca
    have hca' : strLt c a = true := by
      cases h : strLt c a with
      | false => exact absurd h hca
      | true => rfl
    by_cases hcb : c = b
    · subst hcb; rw [hca'] at hab; exact Bool.noConfusion hab
    · rcases strLt_connex c b hcb with h' | h'
      · rw [h'] at hbc; exact Bool.noConfusion hbc
      · have hba := strLt_trans b c a h' hca'
        rw [hba] at hab; exact Bool.noConfusion hab

/-! ## Levenshtein distance (`lev` of `src/unnamed/part_001` / `cmd/food-recipes/main.go`)

The source computes the classic Wagner-Fischer dynamic programme with two rolling
rows over the rune slices. `stepRow` is the inner `for j` loop (producing
`cur[1..lb]` from the previous row and `cur[0] = i`), `levLoop` is the outer
`for i` loop, and `lev` adds the three shortcuts at the top of the function.
`levRec` is the textbook recursive Levenshtein distance used as the specification;
`lev a b = levRec a.reverse b.reverse` is proved below (reversal because the
rows of the dynamic programme are indexed by prefixes, which grow at the head
once reversed). -/

/-- Inner loop of `lev`: produce the cells `cur[j]`, `j = 1..`, from the remaining
runes `ys` of `b`, the remaining previous-row segment (`diag :: up :: _`) and the
cell to the left. `min (up+1) (min (left+1) (diag+cost))` is the source's
`min(a, min(b, c))` with `a = prev[j]+1`, `b = cur[j-1]+1`, `c = prev[j-1]+cost`. -/
def stepRow (x : Char) : Str → List Nat → Nat → List Nat
  | y :: ys, diag :: up :: rest, left =>
    let c := min (up + 1) (min (left + 1) (diag + (if x = y then 0 else 1)))
    c :: stepRow x ys (up :: rest) c
  | _, _, _ => []

/-- Outer loop of `lev`: one iteration per rune of `a`, carrying the previous row
and the row index `i` (which is also `cur[0]`). -/
def levLoop : Str → Str → List Nat → Nat → List Nat
  | [], _, prev, _ => prev
  | x :: xs, b, prev, i => levLoop xs b (i :: stepRow x b prev i) (i + 1)

/-- The function `lev`: Levenshtein distance over runes, with the source's
shortcuts for equal strings and empty arguments, then the rolling-row dynamic
programme initialised with `prev[j] = j` and returning `prev[lb]`. -/
def lev (a b : Str) : Nat :=
  if a = b then 0
  else if a.length = 0 then b.length
  else if b.length = 0 then a.length
  else (levLoop a b (List.range (b.length + 1)) 1).getD b.length 0

/-- Textbook recursive Levenshtein distance (insert / delete / substitute, unit
costs), the specification for the dynamic programme. -/
def levRec : Str → Str → Nat
  | [], bs => bs.length
  | _ :: as, [] => as.length + 1
  | a :: as, b :: bs =>
    min (levRec as (b :: bs) + 1)
      (min (levRec (a :: as) bs + 1) (levRec as bs + (if a = b then 0 else 1)))

theorem levRec_nil_right : ∀ u : Str, levRec u [] = u.length := by
  intro u; cases u <;> simp [levRec]

/-- The cells `prev[j]`, `j = 1..`, of the row for the (reversed) consumed prefix
`A` of `a`: cell `j` is the distance from `A` to the reversal of the first
`j` runes of `b`; `V` is the reversal of the already-consumed prefix of `b`. -/
def rowTail (A : Str) : Str → Str → List Nat
  | _, [] => []
  | V, y :: ys => levRec A (y :: V) :: rowTail A (y :: V) ys

/-- A full row of the dynamic programme (cell `0` followed by `rowTail`). -/
def rowFor (A V ys : Str) : List Nat := levRec A V :: rowTail A V ys

theorem rowFor_cons (A V : Str) (y : Char) (ys : Str) :
    rowFor A V (y :: ys) = levRec A V :: rowFor A (y :: V) ys := rfl

theorem stepRow_rowFor (x : Char) :
    ∀ (ys V A : Str), stepRow x ys (rowFor A V ys) (levRec (x :: A) V) = rowTail (x :: A) V ys := by
  intro ys
  induction ys with
  | nil => intro V A; rfl
  | cons y ys ih =>
    intro V A
    rw [rowFor_cons]
    show stepRow x (y :: ys) (levRec A V :: levRec A (y :: V) :: rowTail A (y :: V) ys) _ = _
    rw [stepRow]
    have hcell : min (levRec A (y :: V) + 1)
        (min (levRec (x :: A) V + 1) (levRec A V + (if x = y then 0 else 1)))
        = levRec (x :: A) (y :: V) := by
      rw [levRec]
    rw [hcell]
    have := ih (y :: V) A
    rw [show (levRec A (y :: V) :: rowTail A (y :: V) ys) = rowFor A (y :: V) ys from rfl, this]
    rfl

theorem levLoop_rowFor (b : Str) :
    ∀ (xs A : Str), levLoop xs b (rowFor A [] b) (A.length + 1) = rowFor (xs.reverse ++ A) [] b := by
  intro xs
  induction xs with
  | nil => intro A; simp [levLoop]
  | cons x xs ih =>
    intro A
    rw [levLoop]
    have h0 : A.length + 1 = levRec (x :: A) [] := by
      rw [levRec_nil_right]; rfl
    rw [h0, stepRow_rowFor x b [] A]
    have : (levRec (x :: A) [] :: rowTail (x :: A) [] b) = rowFor (x :: A) [] b := rfl
    rw [this]
    have hlen : levRec (x :: A) [] + 1 = (x :: A).length + 1 := by rw [levRec_nil_right]
    rw [hlen, ih (x :: A)]
    congr 1
    simp

theorem rowTail_nil_left : ∀ (ys V : Str), rowTail ([] : Str) V ys = List.range' (V.length + 1) ys.length := by
  intro ys
  induction ys with
  | nil => intro V; rfl
  | cons y ys ih =>
    intro V
    rw [rowTail, ih (y :: V)]
    have hlev : levRec [] (y :: V) = V.length + 1 := by simp [levRec]
    rw [hlev]
    show (V.length + 1) :: List.range' (V.length + 1 + 1) ys.length
      = List.range' (V.length + 1) (ys.length + 1)
    rw [List.range'_succ]

theorem rowFor_nil_nil (b : Str) : rowFor [] [] b = List.range (b.length + 1) := by
  rw [rowFor, rowTail_nil_left, List.range_eq_range', List.range'_succ]
  simp [levRec]

theorem rowFor_getD : ∀ (ys V A : Str), (rowFor A V ys).getD ys.length 0 = levRec A (ys.reverse ++ V) := by
  intro ys
  induction ys with
  | nil => intro V A; rfl
  | cons y ys ih =>
    intro V A
    rw [rowFor_cons, List.length_cons, List.getD_cons_succ, ih (y :: V) A]
    congr 1
    simp

theorem levRec_self : ∀ u : Str, levRec u u = 0 := by
  intro u
  induction u with
  | nil => simp [levRec]
  | cons c u ih => simp [levRec, ih]

theorem levRec_symm : ∀ a b : Str, levRec a b = levRec b a := by
  intro a
  induction a with
  | nil =>
    intro b
    cases b <;> simp [levRec]
  | cons x xs ih =>
    intro b
    induction b with
    | nil => simp [levRec]
    | cons y ys ihb =>
      rw [levRec]
      conv_rhs => rw [levRec]
      rw [ih (y :: ys), ihb, ih ys]
      have hc : (if x = y then 0 else 1) = (if y = x then 0 else 1) := by
        by_cases h : x = y
        · subst h; simp
        · rw [if_neg h, if_neg (fun h2 => h h2.symm)]
      rw [hc]
      omega

theorem levRec_eq_zero : ∀ a b : Str, levRec a b = 0 → a = b := by
  intro a
  induction a with
  | nil =>
    intro b h
    cases b with
    | nil => rfl
    | cons y ys => simp [levRec] at h
  | cons x xs ih =>
    intro b h
    cases b with
    | nil => simp [levRec] at h
    | cons y ys =>
      rw [levRec] at h
      have hC : levRec xs ys = 0 := by omega
      have ht : (if x = y then 0 else 1) = 0 := by omega
      have hxy : x = y := by
        by_cases hxy : x = y
        · exact hxy
        · rw [if_neg hxy] at ht; omega
      rw [hxy, ih ys hC]

theorem lev_eq_levRec (a b : Str) : lev a b = levRec a.reverse b.reverse := by
  by_cases hab : a = b
  · subst hab; rw [lev, if_pos rfl, levRec_self]
  · by_cases ha : a.length = 0
    · have ha' : a = [] := List.length_eq_zero.mp ha
      subst ha'
      rw [lev, if_neg hab]
      simp [levRec]
    · by_cases hb : b.length = 0
      · have hb' : b = [] := List.length_eq_zero.mp hb
        subst hb'
        rw [lev, if_neg hab, if_neg ha]
        simp [levRec_nil_right]
      · rw [lev, if_neg hab, if_neg ha, if_neg hb]
        rw [← rowFor_nil_nil]
        have h1 : (1 : Nat) = ([] : Str).length + 1 := rfl
        rw [h1, levLoop_rowFor b a []]
        rw [List.append_nil]
        have := rowFor_getD b [] a.reverse
        rw [List.append_nil] at this
        exact this

/-! ## Data model (`Recipe`, `DB`) and catalog load (`loadCSV`) -/

/-- A recipe row: up to three input ingredient names, one output name, one
output quantity (a Go `int`). -/
structure Recipe where
  inputs : List Str
  output : Str
  qty : Int
deriving DecidableEq

instance : Inhabited Recipe := ⟨⟨[], [], 0⟩⟩

/-- The in-memory catalog `DB`. The two Go maps are modelled as functions;
a key absent from `ingIndex` yields the Go `nil` slice `[]`. -/
structure DB where
  recipes : List Recipe
  allIngredients : List Str
  ingIndex : Str → List Nat
  normIngToActual : Str → Option Str

instance : Inhabited DB := ⟨⟨[], [], fun _ => [], fun _ => none⟩⟩

/-- Value of a non-empty all-digit rune sequence, `none` otherwise. -/
def digitsVal (s : Str) : Option Nat :=
  if s = [] then none
  else s.foldl (fun acc c =>
    match acc with
    | none => none
    | some n => if '0' ≤ c && c ≤ '9' then some (n * 10 + (c.toNat - '0'.toNat)) else none)
    (some 0)

/-- The Go `strconv.Atoi`: optional single sign, then decimal digits; an error
(`none`) on empty/garbled input and on 64-bit overflow. -/
def goAtoi (s : Str) : Option Int :=
  match s with
  | '+' :: t => (digitsVal t).bind (fun n => if (n : Int) ≤ 2 ^ 63 - 1 then some (n : Int) else none)
  | '-' :: t => (digitsVal t).bind (fun n => if (n : Int) ≤ 2 ^ 63 then some (-(n : Int)) else none)
  | t => (digitsVal t).bind (fun n => if (n : Int) ≤ 2 ^ 63 - 1 then some (n : Int) else none)

/-- The `headers` map of `loadCSV`: header cell (lower-cased, trimmed) to its
column index; on duplicate header names the later column wins, as in a Go map
assignment loop. -/
def headerMap (hdr : List Str) : Str → Option Nat :=
  hdr.enum.foldl
    (fun m p => fun k => if k = trimSpace (goStringsToLower p.2) then some p.1 else m k)
    (fun _ => none)

/-- The closure `col` of `loadCSV`: look the (lower-cased) name up in `headers`. -/
def colFn (hdr : List Str) (name : Str) : Option Nat := headerMap hdr (goStringsToLower name)

def input1Name : Str := "input1_name".data

def input2Name : Str := "input2_name".data

def input3Name : Str := "input3_name".data

def outputNameCol : Str := "output_name".data

def outputQtyCol : Str := "output_qty".data

/-- The required header columns of `loadCSV`, in the order checked. -/
def requiredCols : List Str := [input1Name, input2Name, input3Name, outputNameCol, outputQtyCol]

/-- The three input columns read per row. -/
def inputCols : List Str := [input1Name, input2Name, input3Name]

/-- The trimmed cell of `row` under column `name`, when the column exists and
the row is long enough (otherwise the Go code leaves the value unset). -/
def cellAt (col : Str → Option Nat) (row : List Str) (name : Str) : Option Str :=
  (col name).bind (fun idx =>
    if idx < row.length then some (trimSpace (row.getD idx [])) else none)

/-- The `inputs` collected for a row: non-empty trimmed cells of the three
input columns, in column order. -/
def rowInputs (col : Str → Option Nat) (row : List Str) : List Str :=
  inputCols.filterMap (fun name =>
    (cellAt col row name).bind (fun v => if v = [] then none else some v))

/-- The trimmed `output` cell of a row (empty when the column is missing or the
row too short, as in the source where `output` then stays `""`). -/
def rowOutput (col : Str → Option Nat) (row : List Str) : Str :=
  (cellAt col row outputNameCol).getD []

/-- The output quantity of a row: `1` unless the quantity cell parses via
`Atoi` to a positive value. -/
def rowQty (col : Str → Option Nat) (row : List Str) : Int :=
  match (cellAt col row outputQtyCol).bind goAtoi with
  | some q => if 0 < q then q else 1
  | none => 1

/-- One iteration of the row loop of `loadCSV`: `none` for the rows the source
skips (empty rows, rows with an empty output or no non-empty inputs). -/
def parseRow (col : Str → Option Nat) (row : List Str) : Option Recipe :=
  if row = [] then none
  else if rowOutput col row = [] ∨ rowInputs col row = [] then none
  else some ⟨rowInputs col row, rowOutput col row, rowQty col row⟩

/-- One update of the `ingIndex` map: append recipe index `i` under the trimmed
ingredient name, skipping empty names. -/
def stepIdx (i : Nat) (m : Str → List Nat) (inp : Str) : Str → List Nat :=
  if trimSpace inp = [] then m
  else fun k => if k = trimSpace inp then m (trimSpace inp) ++ [i] else m k

/-- The `ingIndex` built by the post-load loop of `loadCSV`. -/
def buildIndex (recipes : List Recipe) : Str → List Nat :=
  recipes.enum.foldl (fun m p => p.2.inputs.foldl (stepIdx p.1) m) (fun _ => [])

/-- One update of the `normIngToActual` map: `normKey ing ↦ ing` (later writes
win, as in a Go map), skipping empty names. -/
def stepNorm (m : Str → Option Str) (inp : Str) : Str → Option Str :=
  if trimSpace inp = [] then m
  else fun k => if k = normKey (trimSpace inp) then some (trimSpace inp) else m k

/-- The `normIngToActual` map built by the post-load loop of `loadCSV`. -/
def buildNorm (recipes : List Recipe) : Str → Option Str :=
  recipes.foldl (fun m r => r.inputs.foldl stepNorm m) (fun _ => none)

/-- All trimmed non-empty input occurrences, in iteration order (the content of
the Go `ingSet`, before deduplication). -/
def collectInputs (recipes : List Recipe) : List Str :=
  recipes.foldl (fun acc r => r.inputs.foldl (fun acc2 inp =>
    if trimSpace inp = [] then acc2 else acc2 ++ [trimSpace inp]) acc) []

/-- Order-preserving first-occurrence deduplication (the `seen` map pattern used
throughout the source). -/
def dedupKeepFirst {α : Type} [DecidableEq α] : List α → List α → List α
  | _, [] => []
  | seen, x :: xs =>
    if x ∈ seen then dedupKeepFirst seen xs else x :: dedupKeepFirst (x :: seen) xs

/-- The function `loadCSV`, from the result of `csv.ReadAll` (so a read error is
propagated): error on zero records or a missing required header column,
otherwise parse the data rows and build the catalog.
(`AllIngredients` is the `sort.Strings`-sorted list of the distinct members of
the Go set `ingSet`; the three per-input map/set updates of the single Go loop
are modelled as three folds over the same data.) -/
def loadCSV (src : Except String (List (List Str))) : Except String DB :=
  match src with
  | .error e => .error ("read csv: " ++ e)
  | .ok records =>
    if records = [] then .error "csv has no rows"
    else
      let hdr := records.headD []
      match requiredCols.find? (fun r => (colFn hdr r).isNone) with
      | some r => .error ("missing required column: " ++ String.mk r)
      | none =>
        let recipes := (records.drop 1).filterMap (parseRow (colFn hdr))
        .ok { recipes := recipes
              allIngredients := List.insertionSort strLeP (dedupKeepFirst [] (collectInputs recipes))
              ingIndex := buildIndex recipes
              normIngToActual := buildNorm recipes }

/-! ## Suggestion engine (`suggest`, `intersectSortedOrUnsorted`) -/

/-- The sorted-merge intersection loop of `intersectSortedOrUnsorted`, phrased
structurally: for the current head `a`, first skip every element of `bs` below
`a` (the repeated `j++` arm), then either emit a match (`i++, j++`) or drop `a`
(the `i++` arm). -/
def interMerge : List Nat → List Nat → List Nat
  | [], _ => []
  | a :: as, bs =>
    match bs.dropWhile (fun b => b < a) with
    | [] => []
    | b :: bs2 => if a = b then a :: interMerge as bs2 else interMerge as (b :: bs2)

/-- The function `intersectSortedOrUnsorted`: nil on an empty side, otherwise
sort copies of both lists and merge-intersect them. -/
def intersectSortedOrUnsorted (a b : List Nat) : List Nat :=
  if a = [] ∨ b = [] then []
  else interMerge (List.insertionSort (· ≤ ·) a) (List.insertionSort (· ≤ ·) b)

/-- The method `suggest`: `nil` for no ingredients, otherwise intersect the
per-ingredient recipe-index lists (the early `break` of the source on an empty
intersection is dropped: intersecting anything with `[]` is `[]`), then emit
the recipes of the de-duplicated surviving indices in order. -/
def DB.suggest (db : DB) (all : List Str) : List Recipe :=
  match all with
  | [] => []
  | ing0 :: rest =>
    let idxs := rest.foldl (fun acc ing => intersectSortedOrUnsorted acc (db.ingIndex ing))
      (db.ingIndex ing0)
    (dedupKeepFirst [] idxs).map (fun ix => db.recipes.getD ix default)

/-! ## Ingredient resolver (`mapUserIngredients`) -/

/-- Every `float64` score the fuzzy matcher manipulates is either a Levenshtein
distance `d`, a halved distance `d * 0.5`, or the initial `math.MaxFloat64` —
all integer multiples of one half, on which float64 arithmetic and comparison
are exact (below `2^53`; beyond it both model and code are past any acceptance
threshold). Scores are therefore embedded exactly, counted in half-units
(score value × 2), as natural numbers; the embedding is order-isomorphic to
the float values, keeping every comparison evaluable. -/
abbrev Score := Nat

/-- The largest finite `float64`, `math.MaxFloat64 = (2 - 2⁻⁵²) · 2¹⁰²³`, the
initial best score, in half-units: `2 * (2^1024 - 2^971) = 2^1025 - 2^972`,
written as a decimal literal so that comparisons against it evaluate
(see `maxFloat64Score_eq`). -/
def maxFloat64Score : Score := 359538626972463141629054847463408713596141135051689993197834953606314521560057077521179117265533756343080917907028764928468642653778928365536935093407075033972099821153102564152490980180778657888151737016910267884609166473806445896331617118664246696549595652408289446337476354361838599762500808052368249716736

theorem maxFloat64Score_eq : maxFloat64Score = 2 ^ 1025 - 2 ^ 972 := by
  rw [maxFloat64Score]; norm_num

/-- Rune-sequence prefix test (helper for `containsStr`). -/
def startsWithStr : Str → Str → Bool
  | _, [] => true
  | [], _ :: _ => false
  | c :: cs, p :: ps => c = p && startsWithStr cs ps

/-- The Go `strings.Contains(s, sub)` at rune granularity (equivalent to the
byte-level test on valid UTF-8, which is self-synchronising). -/
def containsStr : Str → Str → Bool
  | [], sub => sub = ([] : Str)
  | c :: cs, sub => startsWithStr (c :: cs) sub || containsStr cs sub

/-- The fuzzy score of one candidate (in half-units): the Levenshtein distance
of the normalized strings (`d := float64(lev(q, c.norm))`, doubled here),
halved (`d *= 0.5`) when either is a substring of the other. -/
def scoreQ (q cn : Str) : Score :=
  let d : Score := 2 * lev q cn
  if containsStr cn q || containsStr q cn then d / 2 else d

/-- The best-candidate fold of `mapUserIngredients`: walk the precomputed
`(normKey ing, ing)` candidates and keep the first strict improvement over the
running best, starting from `("", math.MaxFloat64)`. -/
def bestCand (db : DB) (q : Str) : Str × Score :=
  (db.allIngredients.map (fun ing => (normKey ing, ing))).foldl
    (fun best c =>
      let d := scoreQ q c.1
      if d < best.2 then (c.2, d) else best)
    ([], maxFloat64Score)

/-- The fate of a single raw term inside the loop of `mapUserIngredients`. -/
inductive TermResult
  | dropped
  | mapped (act : Str)
  | unknown
deriving DecidableEq

/-- One iteration of the term loop of `mapUserIngredients`: drop terms whose
normalized key is empty, otherwise try the exact normalized lookup, otherwise
take the fuzzy best candidate iff it is named and scores at most `2.5`
(`5` in half-units). -/
def resolveTerm (db : DB) (raw : Str) : TermResult :=
  let q := normKey raw
  if q = [] then .dropped
  else
    match db.normIngToActual q with
    | some act => .mapped act
    | none =>
      let best := bestCand db q
      if best.1 ≠ [] ∧ best.2 ≤ 5 then .mapped best.1 else .unknown

/-- The method `mapUserIngredients`: resolve each term in order, collecting
mapped canonical names and unknown raw terms, then de-duplicate the mapped
list preserving first occurrences. -/
def mapUserIngredients (db : DB) (inputs : List Str) : List Str × List Str :=
  let mu := inputs.foldl (fun acc raw =>
    match resolveTerm db raw with
    | .dropped => acc
    | .mapped act => (acc.1 ++ [act], acc.2)
    | .unknown => (acc.1, acc.2 ++ [raw])) ([], [])
  (dedupKeepFirst [] mu.1, mu.2)

/-! ## Helper lemmas: deduplication, trimming, sorted-merge intersection -/

theorem mem_dedupKeepFirst {α : Type} [DecidableEq α] :
    ∀ (l seen : List α) (x : α), x ∈ dedupKeepFirst seen l ↔ x ∈ l ∧ x ∉ seen := by
  intro l
  induction l with
  | nil => intro seen x; simp [dedupKeepFirst]
  | cons y ys ih =>
    intro seen x
    rw [dedupKeepFirst]
    by_cases hy : y ∈ seen
    · rw [if_pos hy, ih]
      constructor
      · rintro ⟨h1, h2⟩; exact ⟨List.mem_cons_of_mem y h1, h2⟩
      · rintro ⟨h1, h2⟩
        rcases List.mem_cons.mp h1 with h | h
        · exact absurd (h ▸ hy) h2
        · exact ⟨h, h2⟩
    · rw [if_neg hy]
      constructor
      · intro h
        rcases List.mem_cons.mp h with h | h
        · exact ⟨h ▸ List.mem_cons_self y ys, h ▸ hy⟩
        · rcases (ih (y :: seen) x).mp h with ⟨h1, h2⟩
          exact ⟨List.mem_cons_of_mem y h1, fun hs => h2 (List.mem_cons_of_mem y hs)⟩
      · rintro ⟨h1, h2⟩
        rcases List.mem_cons.mp h1 with h | h
        · exact h ▸ List.mem_cons_self y _
        · by_cases hxy : x = y
          · exact hxy ▸ List.mem_cons_self y _
          · exact List.mem_cons_of_mem y
              ((ih (y :: seen) x).mpr ⟨h, fun hs => by
                rcases List.mem_cons.mp hs with h' | h'
                · exact hxy h'
                · exact h2 h'⟩)

theorem dropWhile_head_false {α : Type} (p : α → Bool) :
    ∀ (l : List α) (b : α) (t : List α), l.dropWhile p = b :: t → p b = false := by
  intro l
  induction l with
  | nil => intro b t h; exact absurd h (by simp)
  | cons c cs ih =>
    intro b t h
    rw [List.dropWhile_cons] at h
    by_cases hc : p c = true
    · rw [if_pos hc] at h; exact ih b t h
    · rw [if_neg hc] at h
      cases h
      exact Bool.eq_false_iff.mpr hc

theorem dropWhile_eq_self_of_head_false {α : Type} (p : α → Bool) (l : List α)
    (h : ∀ b t, l = b :: t → p b = false) : l.dropWhile p = l := by
  cases l with
  | nil => rfl
  | cons b t => rw [List.dropWhile_cons, if_neg (by rw [h b t rfl]; simp)]

theorem getLast?_of_suffix {α : Type} {l₁ l₂ : List α} (h : l₁ <:+ l₂) (hne : l₁ ≠ []) :
    l₂.getLast? = l₁.getLast? := by
  rcases h with ⟨pre, rfl⟩
  rw [← List.head?_reverse, ← List.head?_reverse, List.reverse_append]
  cases hrev : l₁.reverse with
  | nil => exact absurd (by simpa using hrev) hne
  | cons c cs => simp [hrev]

theorem trimSpace_getLast? (s : Str) (b : Char) (hb : trimSpace s ≠ []) :
    (trimSpace s).getLast? = some b → goIsSpace b = false := by
  intro h
  rw [trimSpace] at h hb
  rw [List.getLast?_reverse] at h
  cases hdw : (s.dropWhile goIsSpace).reverse.dropWhile goIsSpace with
  | nil => rw [hdw] at hb; simp at hb
  | cons c cs =>
    rw [hdw] at h
    simp only [List.head?_cons, Option.some.injEq] at h
    exact h ▸ dropWhile_head_false goIsSpace _ c cs hdw

theorem trimSpace_head? (s : Str) (b : Char) (hb : trimSpace s ≠ []) :
    (trimSpace s).head? = some b → goIsSpace b = false := by
  intro h
  rw [trimSpace] at h hb
  set u := s.dropWhile goIsSpace with hu
  set v := u.reverse.dropWhile goIsSpace with hv
  rw [List.head?_reverse] at h
  have hvne : v ≠ [] := by
    intro hv0; rw [hv0] at hb; simp at hb
  have hsuf : v <:+ u.reverse := List.dropWhile_suffix goIsSpace
  have : u.reverse.getLast? = v.getLast? := getLast?_of_suffix hsuf hvne
  rw [← this, List.getLast?_reverse] at h
  cases hu0 : u with
  | nil => rw [hu0] at h; simp at h
  | cons c cs =>
    rw [hu0] at h
    simp only [List.head?_cons, Option.some.injEq] at h
    exact h ▸ dropWhile_head_false goIsSpace s c cs (hu ▸ hu0)

theorem trimSpace_idem (s : Str) : trimSpace (trimSpace s) = trimSpace s := by
  by_cases h0 : trimSpace s = []
  · rw [h0]; rfl
  · have h1 : (trimSpace s).dropWhile goIsSpace = trimSpace s := by
      apply dropWhile_eq_self_of_head_false
      intro b t hbt
      apply trimSpace_head? s b h0
      rw [hbt]; rfl
    show ((trimSpace s |>.dropWhile goIsSpace).reverse.dropWhile goIsSpace).reverse = trimSpace s
    rw [h1]
    have h2 : (trimSpace s).reverse.dropWhile goIsSpace = (trimSpace s).reverse := by
      apply dropWhile_eq_self_of_head_false
      intro b t hbt
      apply trimSpace_getLast? s b h0
      rw [← List.head?_reverse, hbt]; rfl
    rw [h2, List.reverse_reverse]

theorem mem_interMerge :
    ∀ (la lb : List Nat), List.Sorted (· ≤ ·) la → List.Sorted (· ≤ ·) lb →
      ∀ x, x ∈ interMerge la lb ↔ x ∈ la ∧ x ∈ lb := by
  intro la
  induction la with
  | nil => intro lb _ _ x; simp [interMerge]
  | cons a as ih =>
    intro lb hla hlb x
    have has : List.Sorted (· ≤ ·) as := (List.sorted_cons.mp hla).2
    have ha_le : ∀ y ∈ as, a ≤ y := (List.sorted_cons.mp hla).1
    cases hdw : lb.dropWhile (fun b => b < a) with
    | nil =>
      have hIM : interMerge (a :: as) lb = [] := by
        rw [interMerge, hdw]
      rw [hIM]
      have hall : ∀ y ∈ lb, y < a := by
        intro y hy
        have := (List.dropWhile_eq_nil_iff.mp hdw) y hy
        simpa using this
      simp only [List.not_mem_nil, false_iff]
      rintro ⟨h1, h2⟩
      have hxa : a ≤ x := by
        rcases List.mem_cons.mp h1 with h | h
        · exact h ▸ le_refl a
        · exact ha_le x h
      exact absurd (hall x h2) (not_lt.mpr hxa)
    | cons b bs2 =>
      have hsuf : (b :: bs2) <:+ lb := hdw ▸ List.dropWhile_suffix _
      have hsplit : lb.takeWhile (fun y => y < a) ++ (b :: bs2) = lb := by
        rw [← hdw, List.takeWhile_append_dropWhile]
      have htake_lt : ∀ y ∈ lb.takeWhile (fun y => y < a), y < a := by
        intro y hy
        have := List.mem_takeWhile_imp hy
        simpa using this
      have hb_ge : a ≤ b := by
        have := dropWhile_head_false (fun y => decide (y < a)) lb b bs2 hdw
        simpa using this
      have hbs2_sorted : List.Sorted (· ≤ ·) (b :: bs2) :=
        List.Pairwise.sublist hsuf.sublist hlb
      have hb_le : ∀ y ∈ bs2, b ≤ y := (List.sorted_cons.mp hbs2_sorted).1
      have hmem_of_suffix : ∀ y, y ∈ (b :: bs2) → y ∈ lb := fun y hy => hsuf.subset hy
      have hIM : interMerge (a :: as) lb
          = if a = b then a :: interMerge as bs2 else interMerge as (b :: bs2) := by
        rw [interMerge, hdw]
      rw [hIM]
      by_cases hab : a = b
      · rw [if_pos hab]
        rw [List.mem_cons, ih bs2 has (List.sorted_cons.mp hbs2_sorted).2 x]
        constructor
        · rintro (h | ⟨h1, h2⟩)
          · exact ⟨h ▸ List.mem_cons_self a as,
              h ▸ hab ▸ hmem_of_suffix b (List.mem_cons_self b bs2)⟩
          · exact ⟨List.mem_cons_of_mem a h1, hmem_of_suffix x (List.mem_cons_of_mem b h2)⟩
        · rintro ⟨h1, h2⟩
          by_cases hxa : x = a
          · exact Or.inl hxa
          · right
            have hx_as : x ∈ as := by
              rcases List.mem_cons.mp h1 with h | h
              · exact absurd h hxa
              · exact h
            have hax : a ≤ x := ha_le x hx_as
            have hx_bbs : x ∈ b :: bs2 := by
              rw [← hsplit] at h2
              rcases List.mem_append.mp h2 with h | h
              · exact absurd (htake_lt x h) (not_lt.mpr hax)
              · exact h
            rcases List.mem_cons.mp hx_bbs with h | h
            · exact absurd (h.trans hab.symm) hxa
            · exact ⟨hx_as, h⟩
      · rw [if_neg hab]
        have halt_b : a < b := lt_of_le_of_ne hb_ge hab
        rw [ih (b :: bs2) has hbs2_sorted x]
        constructor
        · rintro ⟨h1, h2⟩
          exact ⟨List.mem_cons_of_mem a h1, hmem_of_suffix x h2⟩
        · rintro ⟨h1, h2⟩
          have hxa : x ≠ a := by
            intro hx
            subst hx
            rw [← hsplit] at h2
            rcases List.mem_append.mp h2 with h | h
            · exact absurd (htake_lt x h) (lt_irrefl x)
            · rcases List.mem_cons.mp h with h | h
              · exact absurd (h ▸ halt_b) (lt_irrefl x)
              · exact absurd (lt_of_lt_of_le halt_b (hb_le x h)) (lt_irrefl x)
          have hx_as : x ∈ as := by
            rcases List.mem_cons.mp h1 with h | h
            · exact absurd h hxa
            · exact h
          have hax : a ≤ x := ha_le x hx_as
          have hx_bbs : x ∈ b :: bs2 := by
            rw [← hsplit] at h2
            rcases List.mem_append.mp h2 with h | h
            · exact absurd (htake_lt x h) (not_lt.mpr hax)
            · exact h
          exact ⟨hx_as, hx_bbs⟩

theorem mem_intersectSortedOrUnsorted (a b : List Nat) (x : Nat) :
    x ∈ intersectSortedOrUnsorted a b ↔ x ∈ a ∧ x ∈ b := by
  rw [intersectSortedOrUnsorted]
  by_cases h : a = [] ∨ b = []
  · rw [if_pos h]
    rcases h with h | h <;> subst h <;> simp
  · rw [if_neg h]
    rw [mem_interMerge _ _ (List.sorted_insertionSort _ a) (List.sorted_insertionSort _ b) x]
    rw [(List.perm_insertionSort _ a).mem_iff, (List.perm_insertionSort _ b).mem_iff]

theorem mem_foldl_intersect (db : DB) :
    ∀ (rest : List Str) (acc : List Nat) (x : Nat),
      (x ∈ rest.foldl (fun acc2 ing => intersectSortedOrUnsorted acc2 (db.ingIndex ing)) acc) ↔
        x ∈ acc ∧ ∀ ing ∈ rest, x ∈ db.ingIndex ing := by
  intro rest
  induction rest with
  | nil => intro acc x; simp
  | cons ing rest ih =>
    intro acc x
    rw [List.foldl_cons, ih, mem_intersectSortedOrUnsorted]
    simp only [List.forall_mem_cons]
    tauto

theorem mem_suggest (db : DB) (all : List Str) (hne : all ≠ []) (r : Recipe) :
    r ∈ db.suggest all ↔
      ∃ ix, (∀ ing ∈ all, ix ∈ db.ingIndex ing) ∧ db.recipes.getD ix default = r := by
  cases all with
  | nil => exact absurd rfl hne
  | cons ing0 rest =>
    show r ∈ (dedupKeepFirst []
        (rest.foldl (fun acc ing => intersectSortedOrUnsorted acc (db.ingIndex ing))
          (db.ingIndex ing0))).map (fun ix => db.recipes.getD ix default) ↔ _
    rw [List.mem_map]
    constructor
    · rintro ⟨ix, hix, hr⟩
      rw [mem_dedupKeepFirst] at hix
      rw [mem_foldl_intersect] at hix
      refine ⟨ix, ?_, hr⟩
      intro ing hing
      rcases List.mem_cons.mp hing with h | h
      · exact h ▸ hix.1.1
      · exact hix.1.2 ing h
    · rintro ⟨ix, hall, hr⟩
      refine ⟨ix, ?_, hr⟩
      rw [mem_dedupKeepFirst, mem_foldl_intersect]
      refine ⟨⟨hall ing0 (List.mem_cons_self _ _), fun ing h => hall ing (List.mem_cons_of_mem _ h)⟩, ?_⟩
      simp

/-! ## Helper lemmas: the resolver loop -/

/-- The canonical name a raw term contributes to the mapped list, if any. -/
def mappedResult (db : DB) (raw : Str) : Option Str :=
  match resolveTerm db raw with
  | .mapped act => some act
  | _ => none

theorem mapUser_foldl (db : DB) :
    ∀ (inputs : List Str) (m u : List Str),
      inputs.foldl (fun acc raw =>
        match resolveTerm db raw with
        | .dropped => acc
        | .mapped act => (acc.1 ++ [act], acc.2)
        | .unknown => (acc.1, acc.2 ++ [raw])) (m, u)
      = (m ++ inputs.filterMap (mappedResult db),
         u ++ inputs.filter (fun raw => decide (resolveTerm db raw = .unknown))) := by
  intro inputs
  induction inputs with
  | nil => intro m u; simp
  | cons raw rest ih =>
    intro m u
    rw [List.foldl_cons]
    cases hres : resolveTerm db raw with
    | dropped =>
      simp only [hres]
      rw [ih m u]
      congr 1
      · rw [List.filterMap_cons]
        simp [mappedResult, hres]
      · rw [List.filter_cons]
        simp [hres]
    | mapped act =>
      simp only [hres]
      rw [ih (m ++ [act]) u]
      congr 1
      · rw [List.filterMap_cons]
        simp [mappedResult, hres]
      · rw [List.filter_cons]
        simp [hres]
    | unknown =>
      simp only [hres]
      rw [ih m (u ++ [raw])]
      congr 1
      · rw [List.filterMap_cons]
        simp [mappedResult, hres]
      · rw [List.filter_cons]
        simp [hres]

theorem mapUserIngredients_eq (db : DB) (inputs : List Str) :
    mapUserIngredients db inputs
      = (dedupKeepFirst [] (inputs.filterMap (mappedResult db)),
         inputs.filter (fun raw => decide (resolveTerm db raw = .unknown))) := by
  rw [mapUserIngredients]
  rw [mapUser_foldl db inputs [] []]
  simp

theorem resolveTerm_dropped_iff (db : DB) (raw : Str) :
    resolveTerm db raw = .dropped ↔ normKey raw = [] := by
  rw [resolveTerm]
  by_cases hq : normKey raw = []
  · simp [hq]
  · simp only [hq, if_neg, iff_false]
    cases h : db.normIngToActual (normKey raw) with
    | some act => simp
    | none =>
      by_cases hb : (bestCand db (normKey raw)).1 ≠ [] ∧ (bestCand db (normKey raw)).2 ≤ 5
      · simp [hb]
      · simp [hb]

/-! ## Helper lemmas: the fuzzy best-candidate fold -/

theorem bestFold_spec (q : Str) :
    ∀ (cands : List (Str × Str)) (b0 : Str) (s0 : Score),
      (cands.foldl (fun best c =>
          let d := scoreQ q c.1
          if d < best.2 then (c.2, d) else best) (b0, s0) = (b0, s0)
        ∧ ∀ c ∈ cands, s0 ≤ scoreQ q c.1)
      ∨ (∃ i, ∃ h : i < cands.length,
          cands.foldl (fun best c =>
            let d := scoreQ q c.1
            if d < best.2 then (c.2, d) else best) (b0, s0)
            = ((cands.get ⟨i, h⟩).2, scoreQ q (cands.get ⟨i, h⟩).1)
          ∧ scoreQ q (cands.get ⟨i, h⟩).1 < s0
          ∧ (∀ c ∈ cands, scoreQ q (cands.get ⟨i, h⟩).1 ≤ scoreQ q c.1)
          ∧ (∀ j, ∀ hj : j < cands.length, j < i →
              scoreQ q (cands.get ⟨i, h⟩).1 < scoreQ q (cands.get ⟨j, hj⟩).1)) := by
  intro cands
  induction cands with
  | nil => intro b0 s0; left; exact ⟨rfl, by simp⟩
  | cons c cs ih =>
    intro b0 s0
    rw [List.foldl_cons]
    by_cases hd : scoreQ q c.1 < s0
    · simp only [hd, if_pos]
      rcases ih c.2 (scoreQ q c.1) with ⟨heq, hall⟩ | ⟨i, h, heq, hlt, hmin, hfirst⟩
      · right
        refine ⟨0, by simp, ?_, hd, ?_, ?_⟩
        · exact heq
        · intro y hy
          rcases List.mem_cons.mp hy with hy | hy
          · rw [hy]; exact le_rfl
          · exact hall y hy
        · intro j hj hj0; omega
      · right
        refine ⟨i + 1, by simpa using h, ?_, ?_, ?_, ?_⟩
        · rw [List.get_cons_succ]; exact heq
        · rw [List.get_cons_succ]; exact lt_trans hlt hd
        · rw [List.get_cons_succ]
          intro y hy
          rcases List.mem_cons.mp hy with hy | hy
          · rw [hy]; exact le_of_lt hlt
          · exact hmin y hy
        · intro j hj hji
          cases j with
          | zero => rw [List.get_cons_succ]; exact hlt
          | succ j' =>
            rw [List.get_cons_succ, List.get_cons_succ]
            exact hfirst j' (by simpa using hj) (by omega)
    · simp only [hd, if_neg, ite_false]
      rcases ih b0 s0 with ⟨heq, hall⟩ | ⟨i, h, heq, hlt, hmin, hfirst⟩
      · left
        refine ⟨heq, ?_⟩
        intro y hy
        rcases List.mem_cons.mp hy with hy | hy
        · rw [hy]; exact not_lt.mp hd
        · exact hall y hy
      · right
        refine ⟨i + 1, by simpa using h, ?_, ?_, ?_, ?_⟩
        · rw [List.get_cons_succ]; exact heq
        · rw [List.get_cons_succ]; exact hlt
        · rw [List.get_cons_succ]
          intro y hy
          rcases List.mem_cons.mp hy with hy | hy
          · rw [hy]; exact le_of_lt (lt_of_lt_of_le hlt (not_lt.mp hd))
          · exact hmin y hy
        · intro j hj hji
          cases j with
          | zero => rw [List.get_cons_succ]; exact lt_of_lt_of_le hlt (not_lt.mp hd)
          | succ j' =>
            rw [List.get_cons_succ, List.get_cons_succ]
            exact hfirst j' (by simpa using hj) (by omega)

theorem bestFold_fst_mem (q : Str) :
    ∀ (cands : List (Str × Str)) (b0 : Str) (s0 : Score),
      (cands.foldl (fun best c =>
          let d := scoreQ q c.1
          if d < best.2 then (c.2, d) else best) (b0, s0)).1 = b0
      ∨ (cands.foldl (fun best c =>
          let d := scoreQ q c.1
          if d < best.2 then (c.2, d) else best) (b0, s0)).1 ∈ cands.map Prod.snd := by
  intro cands
  induction cands with
  | nil => intro b0 s0; left; rfl
  | cons c cs ih =>
    intro b0 s0
    rw [List.foldl_cons]
    by_cases hd : scoreQ q c.1 < s0
    · simp only [hd, if_pos]
      rcases ih c.2 (scoreQ q c.1) with h | h
      · right; rw [h]; simp
      · right; rw [List.map_cons]; exact List.mem_cons_of_mem _ h
    · simp only [hd, if_neg, ite_false]
      rcases ih b0 s0 with h | h
      · left; exact h
      · right; rw [List.map_cons]; exact List.mem_cons_of_mem _ h

/-! ## Helper lemmas: the maps and sets built by `loadCSV` -/

theorem stepIdx_foldl_mem (i : Nat) :
    ∀ (inputs : List Str) (m : Str → List Nat) (ing : Str) (x : Nat),
      x ∈ (inputs.foldl (stepIdx i) m) ing
        ↔ x ∈ m ing ∨ (x = i ∧ ∃ inp ∈ inputs, trimSpace inp = ing ∧ ing ≠ []) := by
  intro inputs
  induction inputs with
  | nil => intro m ing x; simp
  | cons inp rest ih =>
    intro m ing x
    rw [List.foldl_cons, ih]
    have hstep : x ∈ (stepIdx i m inp) ing
        ↔ x ∈ m ing ∨ (x = i ∧ trimSpace inp = ing ∧ ing ≠ []) := by
      by_cases h0 : trimSpace inp = []
      · rw [stepIdx, if_pos h0]
        constructor
        · exact Or.inl
        · rintro (h | ⟨_, htr, hne⟩)
          · exact h
          · exact absurd (htr ▸ h0) hne
      · rw [stepIdx, if_neg h0]
        by_cases hk : ing = trimSpace inp
        · show x ∈ (if ing = trimSpace inp then m (trimSpace inp) ++ [i] else m ing) ↔ _
          rw [if_pos hk, ← hk, List.mem_append]
          constructor
          · rintro (h | h)
            · exact Or.inl h
            · exact Or.inr ⟨by simpa using h, rfl, fun h2 => h0 (hk ▸ h2)⟩
          · rintro (h | ⟨hxi, _, _⟩)
            · exact Or.inl h
            · exact Or.inr (by simpa using hxi)
        · show x ∈ (if ing = trimSpace inp then m (trimSpace inp) ++ [i] else m ing) ↔ _
          rw [if_neg hk]
          constructor
          · exact Or.inl
          · rintro (h | ⟨_, htr, _⟩)
            · exact h
            · exact absurd htr.symm hk
    rw [hstep]
    constructor
    · rintro ((h | ⟨hxi, htr, hne⟩) | ⟨hxi, inp2, hinp2, htr, hne⟩)
      · exact Or.inl h
      · exact Or.inr ⟨hxi, inp, List.mem_cons_self _ _, htr, hne⟩
      · exact Or.inr ⟨hxi, inp2, List.mem_cons_of_mem _ hinp2, htr, hne⟩
    · rintro (h | ⟨hxi, inp2, hinp2, htr, hne⟩)
      · exact Or.inl (Or.inl h)
      · rcases List.mem_cons.mp hinp2 with h2 | h2
        · exact Or.inl (Or.inr ⟨hxi, h2 ▸ htr, hne⟩)
        · exact Or.inr ⟨hxi, inp2, h2, htr, hne⟩

theorem buildIndexAux_mem :
    ∀ (rs : List Recipe) (n : Nat) (m : Str → List Nat) (ing : Str) (x : Nat),
      x ∈ ((List.enumFrom n rs).foldl (fun m2 p => p.2.inputs.foldl (stepIdx p.1) m2) m) ing
        ↔ x ∈ m ing
          ∨ ∃ j, ∃ h : j < rs.length, x = n + j
              ∧ ∃ inp ∈ (rs.get ⟨j, h⟩).inputs, trimSpace inp = ing ∧ ing ≠ [] := by
  intro rs
  induction rs with
  | nil => intro n m ing x; simp
  | cons r rest ih =>
    intro n m ing x
    rw [List.enumFrom_cons, List.foldl_cons, ih (n + 1), stepIdx_foldl_mem]
    constructor
    · rintro ((h | ⟨hxi, hinp⟩) | ⟨j, hj, hxj, hinp⟩)
      · exact Or.inl h
      · exact Or.inr ⟨0, by simp, by omega, hinp⟩
      · exact Or.inr ⟨j + 1, by simpa using hj, by omega, hinp⟩
    · rintro (h | ⟨j, hj, hxj, hinp⟩)
      · exact Or.inl (Or.inl h)
      · cases j with
        | zero => exact Or.inl (Or.inr ⟨by omega, hinp⟩)
        | succ j2 =>
          exact Or.inr ⟨j2, by simpa using hj, by omega, hinp⟩

theorem mem_buildIndex (recipes : List Recipe) (ing : Str) (x : Nat) :
    x ∈ buildIndex recipes ing
      ↔ ∃ h : x < recipes.length,
          ∃ inp ∈ (recipes.get ⟨x, h⟩).inputs, trimSpace inp = ing ∧ ing ≠ [] := by
  rw [buildIndex, List.enum_eq_enumFrom, buildIndexAux_mem]
  constructor
  · rintro (h | ⟨j, hj, hxj, hinp⟩)
    · simp at h
    · have : x = j := by omega
      subst this
      exact ⟨hj, hinp⟩
  · rintro ⟨h, hinp⟩
    exact Or.inr ⟨x, h, by omega, hinp⟩

theorem stepNorm_foldl_some :
    ∀ (inputs : List Str) (m : Str → Option Str) (k : Str) (v : Str),
      (inputs.foldl stepNorm m) k = some v →
        m k = some v ∨ ∃ inp ∈ inputs, trimSpace inp = v ∧ v ≠ [] ∧ k = normKey v := by
  intro inputs
  induction inputs with
  | nil => intro m k v h; exact Or.inl h
  | cons inp rest ih =>
    intro m k v h
    rw [List.foldl_cons] at h
    rcases ih (stepNorm m inp) k v h with h2 | ⟨inp2, hinp2, htr, hne, hk⟩
    · by_cases h0 : trimSpace inp = []
      · rw [stepNorm, if_pos h0] at h2
        exact Or.inl h2
      · rw [stepNorm, if_neg h0] at h2
        by_cases hk : k = normKey (trimSpace inp)
        · rw [if_pos hk] at h2
          cases h2
          exact Or.inr ⟨inp, List.mem_cons_self _ _, rfl, h0, hk⟩
        · rw [if_neg hk] at h2
          exact Or.inl h2
    · exact Or.inr ⟨inp2, List.mem_cons_of_mem _ hinp2, htr, hne, hk⟩

theorem buildNorm_some (recipes : List Recipe) (k v : Str) :
    buildNorm recipes k = some v →
      ∃ r ∈ recipes, ∃ inp ∈ r.inputs, trimSpace inp = v ∧ v ≠ [] ∧ k = normKey v := by
  rw [buildNorm]
  suffices h : ∀ (rs : List Recipe) (m : Str → Option Str),
      (rs.foldl (fun m2 r => r.inputs.foldl stepNorm m2) m) k = some v →
        m k = some v ∨ ∃ r ∈ rs, ∃ inp ∈ r.inputs, trimSpace inp = v ∧ v ≠ [] ∧ k = normKey v by
    intro hsome
    rcases h recipes (fun _ => none) hsome with h2 | h2
    · exact absurd h2 (by simp)
    · exact h2
  intro rs
  induction rs with
  | nil => intro m h; exact Or.inl h
  | cons r rest ih =>
    intro m h
    rw [List.foldl_cons] at h
    rcases ih _ h with h2 | ⟨r2, hr2, rest_h⟩
    · rcases stepNorm_foldl_some r.inputs m k v h2 with h3 | ⟨inp, hinp, htr, hne, hk⟩
      · exact Or.inl h3
      · exact Or.inr ⟨r, List.mem_cons_self _ _, inp, hinp, htr, hne, hk⟩
    · exact Or.inr ⟨r2, List.mem_cons_of_mem _ hr2, rest_h⟩

theorem stepNorm_preserves (m : Str → Option Str) (inp : Str) (k : Str)
    (h : m k ≠ none) : (stepNorm m inp) k ≠ none := by
  by_cases h0 : trimSpace inp = []
  · rw [stepNorm, if_pos h0]; exact h
  · rw [stepNorm, if_neg h0]
    show (if k = normKey (trimSpace inp) then some (trimSpace inp) else m k) ≠ none
    by_cases hk : k = normKey (trimSpace inp)
    · rw [if_pos hk]; simp
    · rw [if_neg hk]; exact h

theorem stepNorm_foldl_preserves :
    ∀ (inputs : List Str) (m : Str → Option Str) (k : Str),
      m k ≠ none → (inputs.foldl stepNorm m) k ≠ none := by
  intro inputs
  induction inputs with
  | nil => intro m k h; exact h
  | cons inp rest ih =>
    intro m k h
    rw [List.foldl_cons]
    exact ih _ k (stepNorm_preserves m inp k h)

theorem buildNorm_foldl_preserves :
    ∀ (rs : List Recipe) (m : Str → Option Str) (k : Str),
      m k ≠ none → (rs.foldl (fun m2 r => r.inputs.foldl stepNorm m2) m) k ≠ none := by
  intro rs
  induction rs with
  | nil => intro m k h; exact h
  | cons r rest ih =>
    intro m k h
    rw [List.foldl_cons]
    exact ih _ k (stepNorm_foldl_preserves r.inputs m k h)

theorem stepNorm_foldl_present :
    ∀ (inputs : List Str) (m : Str → Option Str) (inp : Str),
      inp ∈ inputs → trimSpace inp ≠ [] →
        (inputs.foldl stepNorm m) (normKey (trimSpace inp)) ≠ none := by
  intro inputs
  induction inputs with
  | nil => intro m inp h; simp at h
  | cons inp2 rest ih =>
    intro m inp hmem hne
    rw [List.foldl_cons]
    rcases List.mem_cons.mp hmem with h | h
    · subst h
      apply stepNorm_foldl_preserves
      rw [stepNorm, if_neg hne]
      show (if normKey (trimSpace inp) = normKey (trimSpace inp)
          then some (trimSpace inp) else m (normKey (trimSpace inp))) ≠ none
      rw [if_pos rfl]
      simp
    · exact ih _ inp h hne

theorem buildNorm_present (recipes : List Recipe) (r : Recipe) (inp : Str)
    (hr : r ∈ recipes) (hinp : inp ∈ r.inputs) (hne : trimSpace inp ≠ []) :
    buildNorm recipes (normKey (trimSpace inp)) ≠ none := by
  rw [buildNorm]
  suffices h : ∀ (rs : List Recipe) (m : Str → Option Str), r ∈ rs →
      (rs.foldl (fun m2 r2 => r2.inputs.foldl stepNorm m2) m) (normKey (trimSpace inp)) ≠ none by
    exact h recipes _ hr
  intro rs
  induction rs with
  | nil => intro m h; simp at h
  | cons r2 rest ih =>
    intro m hmem
    rw [List.foldl_cons]
    rcases List.mem_cons.mp hmem with h | h
    · subst h
      exact buildNorm_foldl_preserves rest _ _ (stepNorm_foldl_present r.inputs m inp hinp hne)
    · exact ih _ h

theorem mem_collectInputs (recipes : List Recipe) (ing : Str) :
    ing ∈ collectInputs recipes
      ↔ ∃ r ∈ recipes, ∃ inp ∈ r.inputs, trimSpace inp = ing ∧ ing ≠ [] := by
  rw [collectInputs]
  suffices h : ∀ (rs : List Recipe) (acc : List Str),
      ing ∈ rs.foldl (fun acc r => r.inputs.foldl (fun acc2 inp =>
          if trimSpace inp = [] then acc2 else acc2 ++ [trimSpace inp]) acc) acc
        ↔ ing ∈ acc ∨ ∃ r ∈ rs, ∃ inp ∈ r.inputs, trimSpace inp = ing ∧ ing ≠ [] by
    rw [h]
    simp
  have hinner : ∀ (inputs : List Str) (acc : List Str),
      ing ∈ inputs.foldl (fun acc2 inp =>
          if trimSpace inp = [] then acc2 else acc2 ++ [trimSpace inp]) acc
        ↔ ing ∈ acc ∨ ∃ inp ∈ inputs, trimSpace inp = ing ∧ ing ≠ [] := by
    intro inputs
    induction inputs with
    | nil => intro acc; simp
    | cons inp rest ih =>
      intro acc
      rw [List.foldl_cons, ih]
      by_cases h0 : trimSpace inp = []
      · rw [if_pos h0]
        constructor
        · rintro (h | ⟨inp2, h2, htr, hne⟩)
          · exact Or.inl h
          · exact Or.inr ⟨inp2, List.mem_cons_of_mem _ h2, htr, hne⟩
        · rintro (h | ⟨inp2, h2, htr, hne⟩)
          · exact Or.inl h
          · rcases List.mem_cons.mp h2 with h3 | h3
            · exact absurd (show ing = [] by rw [← htr, h3]; exact h0) hne
            · exact Or.inr ⟨inp2, h3, htr, hne⟩
      · rw [if_neg h0]
        constructor
        · rintro (h | ⟨inp2, h2, htr, hne⟩)
          · rcases List.mem_append.mp h with h3 | h3
            · exact Or.inl h3
            · refine Or.inr ⟨inp, List.mem_cons_self _ _, ?_, ?_⟩
              · exact (List.mem_singleton.mp h3).symm
              · intro hbad
                apply h0
                rw [← List.mem_singleton.mp h3]
                exact hbad
          · exact Or.inr ⟨inp2, List.mem_cons_of_mem _ h2, htr, hne⟩
        · rintro (h | ⟨inp2, h2, htr, hne⟩)
          · exact Or.inl (List.mem_append.mpr (Or.inl h))
          · rcases List.mem_cons.mp h2 with h3 | h3
            · exact Or.inl (List.mem_append.mpr (Or.inr (by rw [← h3, htr]; simp)))
            · exact Or.inr ⟨inp2, h3, htr, hne⟩
  intro rs
  induction rs with
  | nil => intro acc; simp
  | cons r rest ih =>
    intro acc
    rw [List.foldl_cons, ih, hinner]
    constructor
    · rintro ((h | ⟨inp, h2, htr, hne⟩) | ⟨r2, h2, rest_h⟩)
      · exact Or.inl h
      · exact Or.inr ⟨r, List.mem_cons_self _ _, inp, h2, htr, hne⟩
      · exact Or.inr ⟨r2, List.mem_cons_of_mem _ h2, rest_h⟩
    · rintro (h | ⟨r2, h2, rest_h⟩)
      · exact Or.inl (Or.inl h)
      · rcases List.mem_cons.mp h2 with h3 | h3
        · exact Or.inl (Or.inr (h3 ▸ rest_h))
        · exact Or.inr ⟨r2, h3, rest_h⟩

theorem cellAt_some_trim (col : Str → Option Nat) (row : List Str) (name : Str) (v : Str)
    (h : cellAt col row name = some v) : trimSpace v = v := by
  rw [cellAt] at h
  rcases Option.bind_eq_some.mp h with ⟨idx, _, hf⟩
  by_cases hlt : idx < row.length
  · rw [if_pos hlt] at hf
    injection hf with hf
    rw [← hf]
    exact trimSpace_idem _
  · rw [if_neg hlt] at hf
    cases hf

theorem mem_rowInputs_trim (col : Str → Option Nat) (row : List Str) (inp : Str)
    (h : inp ∈ rowInputs col row) : trimSpace inp = inp ∧ inp ≠ [] := by
  rw [rowInputs] at h
  rcases List.mem_filterMap.mp h with ⟨name, _, hf⟩
  rcases Option.bind_eq_some.mp hf with ⟨v, hcell, hv⟩
  by_cases hv0 : v = []
  · rw [if_pos hv0] at hv; cases hv
  · rw [if_neg hv0] at hv
    injection hv with hv
    rw [← hv]
    exact ⟨cellAt_some_trim col row name v hcell, hv0⟩

theorem parseRow_some (col : Str → Option Nat) (row : List Str) (rec : Recipe)
    (h : parseRow col row = some rec) :
    rec = ⟨rowInputs col row, rowOutput col row, rowQty col row⟩
      ∧ rowOutput col row ≠ [] ∧ rowInputs col row ≠ [] := by
  rw [parseRow] at h
  by_cases h0 : row = []
  · rw [if_pos h0] at h; cases h
  · rw [if_neg h0] at h
    by_cases h1 : rowOutput col row = [] ∨ rowInputs col row = []
    · rw [if_pos h1] at h; cases h
    · rw [if_neg h1] at h
      injection h with h
      push_neg at h1
      exact ⟨h.symm, h1.1, h1.2⟩

theorem parseRow_none_of_malformed (col : Str → Option Nat) (row : List Str)
    (h : rowOutput col row = [] ∨ rowInputs col row = []) :
    parseRow col row = none := by
  rw [parseRow]
  by_cases h0 : row = []
  · rw [if_pos h0]
  · rw [if_neg h0, if_pos h]

/-- The recipes a successful `loadCSV` builds, and the construction of every
other field from them. -/
theorem loadCSV_ok_fields (records : List (List Str)) (db : DB)
    (h : loadCSV (.ok records) = .ok db) :
    records ≠ []
    ∧ db.recipes = (records.drop 1).filterMap (parseRow (colFn (records.headD [])))
    ∧ db.allIngredients = List.insertionSort strLeP (dedupKeepFirst [] (collectInputs db.recipes))
    ∧ db.ingIndex = buildIndex db.recipes
    ∧ db.normIngToActual = buildNorm db.recipes := by
  simp only [loadCSV] at h
  by_cases h0 : records = []
  · rw [if_pos h0] at h
    exact Except.noConfusion h
  · rw [if_neg h0] at h
    cases hfind : requiredCols.find? (fun r => (colFn (records.headD []) r).isNone) with
    | some r =>
      rw [hfind] at h
      exact Except.noConfusion h
    | none =>
      rw [hfind] at h
      have h2 : Except.ok (ε := String)
          ({ recipes := (records.drop 1).filterMap (parseRow (colFn (records.headD [])))
             allIngredients := List.insertionSort strLeP (dedupKeepFirst []
               (collectInputs ((records.drop 1).filterMap (parseRow (colFn (records.headD []))))))
             ingIndex := buildIndex ((records.drop 1).filterMap (parseRow (colFn (records.headD []))))
             normIngToActual := buildNorm ((records.drop 1).filterMap
               (parseRow (colFn (records.headD [])))) } : DB) = .ok db := h
      injection h2 with h2
      rw [← h2]
      exact ⟨h0, rfl, rfl, rfl, rfl⟩

/-- Success of `loadCSV` depends only on the read result, the presence of at
least one record, and the required header columns. -/
theorem loadCSV_ok_iff (src : Except String (List (List Str))) :
    (∃ db, loadCSV src = .ok db)
      ↔ ∃ records, src = .ok records ∧ records ≠ []
          ∧ ∀ name ∈ requiredCols, (colFn (records.headD []) name).isSome := by
  cases src with
  | error e =>
    constructor
    · rintro ⟨db, h⟩
      rw [loadCSV] at h
      exact Except.noConfusion h
    · rintro ⟨records, h, _⟩
      exact Except.noConfusion h
  | ok records =>
    constructor
    · rintro ⟨db, h⟩
      simp only [loadCSV] at h
      by_cases h0 : records = []
      · rw [if_pos h0] at h
        exact Except.noConfusion h
      · rw [if_neg h0] at h
        cases hfind : requiredCols.find? (fun r => (colFn (records.headD []) r).isNone) with
        | some r =>
          rw [hfind] at h
          exact Except.noConfusion h
        | none =>
          refine ⟨records, rfl, h0, ?_⟩
          intro name hname
          have := List.find?_eq_none.mp hfind name hname
          simpa [Option.isNone_iff_eq_none, Option.isSome_iff_ne_none] using this
    · rintro ⟨records2, heq, h0, hcols⟩
      injection heq with heq
      subst heq
      simp only [loadCSV]
      rw [if_neg h0]
      cases hfind : requiredCols.find? (fun r => (colFn (records.headD []) r).isNone) with
      | some r =>
        have hr := List.find?_some hfind
        have hrmem := List.mem_of_find?_eq_some hfind
        have := hcols r hrmem
        rw [Option.isNone_iff_eq_none] at hr
        rw [Option.isSome_iff_ne_none] at this
        exact absurd hr this
      | none =>
        exact ⟨_, rfl⟩

/-! ## Invariants of a successfully loaded catalog -/

theorem load_inputs_trim (records : List (List Str)) (db : DB)
    (h : loadCSV (.ok records) = .ok db) :
    ∀ rec ∈ db.recipes, ∀ inp ∈ rec.inputs, trimSpace inp = inp ∧ inp ≠ [] := by
  obtain ⟨-, hrec, -, -, -⟩ := loadCSV_ok_fields records db h
  intro rec hrecmem inp hinp
  rw [hrec] at hrecmem
  rcases List.mem_filterMap.mp hrecmem with ⟨row, -, hparse⟩
  obtain ⟨heq, -, -⟩ := parseRow_some _ row rec hparse
  rw [heq] at hinp
  exact mem_rowInputs_trim _ row inp hinp

theorem load_allIngredients_iff (records : List (List Str)) (db : DB)
    (h : loadCSV (.ok records) = .ok db) (ing : Str) :
    ing ∈ db.allIngredients ↔ ∃ rec ∈ db.recipes, ing ∈ rec.inputs := by
  obtain ⟨-, -, hall, -, -⟩ := loadCSV_ok_fields records db h
  rw [hall, (List.perm_insertionSort strLeP _).mem_iff, mem_dedupKeepFirst, mem_collectInputs]
  constructor
  · rintro ⟨⟨rec, hrec, inp, hinp, htr, hne⟩, -⟩
    have htrim := (load_inputs_trim records db h rec hrec inp hinp).1
    rw [htrim] at htr
    exact ⟨rec, hrec, htr ▸ hinp⟩
  · rintro ⟨rec, hrec, hing⟩
    obtain ⟨htr, hne⟩ := load_inputs_trim records db h rec hrec ing hing
    exact ⟨⟨rec, hrec, ing, hing, htr, hne⟩, List.not_mem_nil ing⟩

theorem load_ingIndex_iff (records : List (List Str)) (db : DB)
    (h : loadCSV (.ok records) = .ok db) (ing : Str) (x : Nat) :
    x ∈ db.ingIndex ing
      ↔ ∃ hx : x < db.recipes.length, ing ∈ (db.recipes.get ⟨x, hx⟩).inputs := by
  obtain ⟨-, -, -, hidx, -⟩ := loadCSV_ok_fields records db h
  rw [hidx, mem_buildIndex]
  constructor
  · rintro ⟨hx, inp, hinp, htr, hne⟩
    have hget : db.recipes.get ⟨x, hx⟩ ∈ db.recipes := List.get_mem _ _ _
    have htrim := (load_inputs_trim records db h _ hget inp hinp).1
    rw [htrim] at htr
    exact ⟨hx, htr ▸ hinp⟩
  · rintro ⟨hx, hing⟩
    have hget : db.recipes.get ⟨x, hx⟩ ∈ db.recipes := List.get_mem _ _ _
    obtain ⟨htr, hne⟩ := load_inputs_trim records db h _ hget ing hing
    exact ⟨hx, ing, hing, htr, hne⟩

theorem load_norm_some (records : List (List Str)) (db : DB)
    (h : loadCSV (.ok records) = .ok db) (k v : Str) :
    db.normIngToActual k = some v → v ∈ db.allIngredients ∧ normKey v = k := by
  obtain ⟨-, -, -, -, hnorm⟩ := loadCSV_ok_fields records db h
  intro hsome
  rw [hnorm] at hsome
  obtain ⟨r, hr, inp, hinp, htr, hne, hk⟩ := buildNorm_some db.recipes k v hsome
  have htrim := (load_inputs_trim records db h r hr inp hinp).1
  rw [htrim] at htr
  subst htr
  exact ⟨(load_allIngredients_iff records db h inp).mpr ⟨r, hr, hinp⟩, hk.symm⟩

theorem load_norm_present (records : List (List Str)) (db : DB)
    (h : loadCSV (.ok records) = .ok db) (ing : Str)
    (hmem : ing ∈ db.allIngredients) : db.normIngToActual (normKey ing) ≠ none := by
  obtain ⟨rec, hrec, hing⟩ := (load_allIngredients_iff records db h ing).mp hmem
  obtain ⟨htr, hne⟩ := load_inputs_trim records db h rec hrec ing hing
  obtain ⟨-, -, -, -, hnorm⟩ := loadCSV_ok_fields records db h
  rw [hnorm]
  have h2 : trimSpace ing ≠ [] := by rw [htr]; exact hne
  have h3 := buildNorm_present db.recipes rec ing hrec hing h2
  rw [htr] at h3
  exact h3

/-! ## Helper lemmas: character classes and `goToLower` -/

theorem char_toNat_ofNat_valid (n : Nat) (h : n.isValidChar) : (Char.ofNat n).toNat = n := by
  rw [Char.ofNat, dif_pos h, Char.ofNatAux]
  show (BitVec.ofNatLt n _).toNat = n
  exact BitVec.toNat_ofNatLt _ _

theorem goToLower_AZ (c : Char) (h : ('A' ≤ c && c ≤ 'Z') = true) :
    97 ≤ (goToLower c).toNat ∧ (goToLower c).toNat ≤ 122 := by
  rw [Bool.and_eq_true] at h
  have h1 : 'A' ≤ c := of_decide_eq_true h.1
  have h2 : c ≤ 'Z' := of_decide_eq_true h.2
  rw [Char.le_def, UInt32.le_def] at h1 h2
  have h1n : 65 ≤ c.toNat := h1
  have h2n : c.toNat ≤ 90 := h2
  rw [goToLower, if_pos (by rw [Bool.and_eq_true]; exact ⟨decide_eq_true (by rw [Char.le_def, UInt32.le_def]; exact h1), decide_eq_true (by rw [Char.le_def, UInt32.le_def]; exact h2)⟩)]
  have hv : (c.toNat + 32).isValidChar := Or.inl (by omega)
  rw [char_toNat_ofNat_valid _ hv]
  omega

theorem goToLower_eq_self (c : Char) (h : ¬ (('A' ≤ c && c ≤ 'Z') = true)) :
    goToLower c = c := by
  rw [goToLower, if_neg h]

theorem goToLower_idem (c : Char) : goToLower (goToLower c) = goToLower c := by
  by_cases h : ('A' ≤ c && c ≤ 'Z') = true
  · obtain ⟨h1, h2⟩ := goToLower_AZ c h
    apply goToLower_eq_self
    intro hcon
    rw [Bool.and_eq_true] at hcon
    have h3 : goToLower c ≤ 'Z' := of_decide_eq_true hcon.2
    rw [Char.le_def, UInt32.le_def] at h3
    have h3n : (goToLower c).toNat ≤ 90 := h3
    omega
  · rw [goToLower_eq_self c h]
    exact goToLower_eq_self c h

theorem goIsLetter_goToLower (c : Char) (h : ('A' ≤ c && c ≤ 'Z') = true) :
    goIsLetter (goToLower c) = true := by
  obtain ⟨h1, h2⟩ := goToLower_AZ c h
  have ha : 'a' ≤ goToLower c := by rw [Char.le_def, UInt32.le_def]; exact h1
  have hz : goToLower c ≤ 'z' := by rw [Char.le_def, UInt32.le_def]; exact h2
  rw [goIsLetter]
  simp [ha, hz]

theorem keepPunct_goToLower (c : Char) (h : keepPunct c = true) :
    keepPunct (goToLower c) = true := by
  by_cases hAZ : ('A' ≤ c && c ≤ 'Z') = true
  · rw [keepPunct, goIsLetter_goToLower c hAZ]
    simp
  · rw [goToLower_eq_self c hAZ]
    exact h

theorem keepNoPunct_goToLower (c : Char) (h : keepNoPunct c = true) :
    keepNoPunct (goToLower c) = true := by
  by_cases hAZ : ('A' ≤ c && c ≤ 'Z') = true
  · rw [keepNoPunct, goIsLetter_goToLower c hAZ]
    simp
  · rw [goToLower_eq_self c hAZ]
    exact h

/-! ## Helper lemmas: `fields`, `joinSpace` and idempotence of `normKey` -/

theorem foldr_fieldsStep_chars :
    ∀ (s : Str) (w : Str), w ∈ s.foldr fieldsStep [[]] →
      ∀ c ∈ w, c ∈ s ∧ goIsSpace c = false := by
  intro s
  induction s with
  | nil =>
    intro w hw c hc
    simp only [List.foldr_nil] at hw
    rcases List.mem_singleton.mp hw with rfl
    simp at hc
  | cons x xs ih =>
    intro w hw c hc
    rw [List.foldr_cons] at hw
    cases hacc : xs.foldr fieldsStep [[]] with
    | nil =>
      rw [hacc] at hw
      by_cases hx : goIsSpace x = true
      · rw [fieldsStep, if_pos hx] at hw
        rcases List.mem_singleton.mp hw with rfl
        simp at hc
      · rw [fieldsStep, if_neg hx] at hw
        rcases List.mem_singleton.mp hw with rfl
        rcases List.mem_singleton.mp hc with rfl
        exact ⟨List.mem_cons_self _ _, Bool.eq_false_iff.mpr hx⟩
    | cons w2 ws =>
      rw [hacc] at hw
      by_cases hx : goIsSpace x = true
      · rw [fieldsStep, if_pos hx] at hw
        rcases List.mem_cons.mp hw with h | h
        · subst h; simp at hc
        · obtain ⟨h1, h2⟩ := ih w (by rw [hacc]; exact h) c hc
          exact ⟨List.mem_cons_of_mem _ h1, h2⟩
      · rw [fieldsStep, if_neg hx] at hw
        rcases List.mem_cons.mp hw with h | h
        · subst h
          rcases List.mem_cons.mp hc with h2 | h2
          · subst h2
            exact ⟨List.mem_cons_self _ _, Bool.eq_false_iff.mpr hx⟩
          · obtain ⟨h3, h4⟩ := ih w2 (by rw [hacc]; exact List.mem_cons_self w2 ws) c h2
            exact ⟨List.mem_cons_of_mem _ h3, h4⟩
        · obtain ⟨h3, h4⟩ := ih w (by rw [hacc]; exact List.mem_cons_of_mem w2 h) c hc
          exact ⟨List.mem_cons_of_mem _ h3, h4⟩

theorem fields_words (s : Str) (w : Str) (hw : w ∈ fields s) :
    w ≠ [] ∧ ∀ c ∈ w, c ∈ s ∧ goIsSpace c = false := by
  rw [fields] at hw
  have h1 := List.mem_filter.mp hw
  refine ⟨by simpa using h1.2, ?_⟩
  exact foldr_fieldsStep_chars s w h1.1

theorem foldr_fieldsStep_spacefree :
    ∀ (w : Str), (∀ c ∈ w, goIsSpace c = false) →
      ∀ (acc : List Str), w.foldr fieldsStep ([] :: acc) = w :: acc := by
  intro w
  induction w with
  | nil => intro _ acc; rfl
  | cons c w2 ih =>
    intro hsf acc
    rw [List.foldr_cons, ih (fun c2 hc2 => hsf c2 (List.mem_cons_of_mem _ hc2)) acc]
    rw [fieldsStep, if_neg (by rw [hsf c (List.mem_cons_self _ _)]; simp)]

theorem icat_cons (w : Str) (W : List Str) (hW : W ≠ []) :
    List.intercalate [' '] (w :: W) = w ++ ' ' :: List.intercalate [' '] W := by
  cases W with
  | nil => exact absurd rfl hW
  | cons w2 W2 =>
    rw [List.intercalate, List.intercalate, List.intersperse_cons_cons,
      List.flatten_cons, List.flatten_cons]
    simp

theorem joinSpace_singleton (w : Str) : joinSpace [w] = w := by
  simp [joinSpace, List.intercalate]

theorem G_intercalate :
    ∀ (W : List Str), W ≠ [] → (∀ w ∈ W, ∀ c ∈ w, goIsSpace c = false) →
      (List.intercalate [' '] W).foldr fieldsStep [[]] = W := by
  intro W
  induction W with
  | nil => intro h; exact absurd rfl h
  | cons w W' ih =>
    intro _ hsf
    cases W' with
    | nil =>
      have : List.intercalate [' '] [w] = w := joinSpace_singleton w
      rw [this]
      exact foldr_fieldsStep_spacefree w (hsf w (List.mem_cons_self _ _)) []
    | cons w2 W2 =>
      rw [icat_cons w _ (by simp), List.foldr_append, List.foldr_cons]
      have hrest := ih (by simp) (fun w3 h3 c h4 => hsf w3 (List.mem_cons_of_mem _ h3) c h4)
      rw [hrest]
      rw [fieldsStep, if_pos (by simp [goIsSpace])]
      exact foldr_fieldsStep_spacefree w (hsf w (List.mem_cons_self _ _)) _

theorem fields_joinSpace (W : List Str)
    (hne : ∀ w ∈ W, w ≠ []) (hsf : ∀ w ∈ W, ∀ c ∈ w, goIsSpace c = false) :
    fields (joinSpace W) = W := by
  cases W with
  | nil => rfl
  | cons w W' =>
    rw [joinSpace, fields, G_intercalate (w :: W') (by simp) hsf]
    rw [List.filter_eq_self.mpr]
    intro a ha
    simpa using hne a ha

theorem mem_joinSpace :
    ∀ (W : List Str) (c : Char), c ∈ joinSpace W → (∃ w ∈ W, c ∈ w) ∨ c = ' ' := by
  intro W
  induction W with
  | nil =>
    intro c h
    simp [joinSpace, List.intercalate] at h
  | cons w W' ih =>
    intro c h
    cases W' with
    | nil =>
      rw [joinSpace_singleton] at h
      exact Or.inl ⟨w, List.mem_cons_self _ _, h⟩
    | cons w2 W2 =>
      rw [joinSpace, icat_cons w _ (by simp)] at h
      rcases List.mem_append.mp h with h | h
      · exact Or.inl ⟨w, List.mem_cons_self _ _, h⟩
      · rcases List.mem_cons.mp h with h | h
        · exact Or.inr h
        · rcases ih c h with ⟨w3, h3, h4⟩ | h3
          · exact Or.inl ⟨w3, List.mem_cons_of_mem _ h3, h4⟩
          · exact Or.inr h3

theorem joinSpace_ne_nil (W : List Str) (hW : W ≠ []) (hne : ∀ w ∈ W, w ≠ []) :
    joinSpace W ≠ [] := by
  cases W with
  | nil => exact absurd rfl hW
  | cons w W' =>
    cases W' with
    | nil =>
      rw [joinSpace_singleton]
      exact hne w (List.mem_cons_self _ _)
    | cons w2 W2 =>
      rw [joinSpace, icat_cons w _ (by simp)]
      intro hbad
      rcases List.append_eq_nil.mp hbad with ⟨-, h2⟩
      exact List.noConfusion h2

theorem joinSpace_head?_nospace (W : List Str)
    (hne : ∀ w ∈ W, w ≠ []) (hsf : ∀ w ∈ W, ∀ c ∈ w, goIsSpace c = false) :
    ∀ b, (joinSpace W).head? = some b → goIsSpace b = false := by
  intro b h
  cases W with
  | nil => simp [joinSpace, List.intercalate] at h
  | cons w W' =>
    have hw : w ≠ [] := hne w (List.mem_cons_self _ _)
    cases hwc : w with
    | nil => exact absurd hwc hw
    | cons c w2 =>
      have hhead : (joinSpace (w :: W')).head? = some c := by
        cases W' with
        | nil => rw [joinSpace_singleton, hwc]; rfl
        | cons w3 W3 =>
          rw [joinSpace, icat_cons w _ (by simp), hwc]
          rfl
      rw [hhead] at h
      injection h with h
      rw [← h]
      exact hsf w (List.mem_cons_self _ _) c (hwc.symm ▸ List.mem_cons_self c w2)

theorem joinSpace_getLast?_nospace :
    ∀ (W : List Str), (∀ w ∈ W, w ≠ []) → (∀ w ∈ W, ∀ c ∈ w, goIsSpace c = false) →
      ∀ b, (joinSpace W).getLast? = some b → goIsSpace b = false := by
  intro W
  induction W with
  | nil =>
    intro _ _ b h
    simp [joinSpace, List.intercalate] at h
  | cons w W' ih =>
    intro hne hsf b h
    cases W' with
    | nil =>
      rw [joinSpace_singleton] at h
      have hwne : w ≠ [] := hne w (List.mem_cons_self _ _)
      rw [List.getLast?_eq_getLast w hwne] at h
      injection h with h
      rw [← h]
      exact hsf w (List.mem_cons_self _ _) _ (List.getLast_mem hwne)
    | cons w2 W2 =>
      rw [joinSpace, icat_cons w _ (by simp)] at h
      have hJ : List.intercalate [' '] (w2 :: W2) ≠ [] :=
        joinSpace_ne_nil _ (by simp) (fun w3 h3 => hne w3 (List.mem_cons_of_mem _ h3))
      have hsuf1 : (' ' :: List.intercalate [' '] (w2 :: W2))
          <:+ (w ++ ' ' :: List.intercalate [' '] (w2 :: W2)) := ⟨w, rfl⟩
      rw [getLast?_of_suffix hsuf1 (by simp)] at h
      have hsuf2 : (List.intercalate [' '] (w2 :: W2))
          <:+ (' ' :: List.intercalate [' '] (w2 :: W2)) := ⟨[' '], rfl⟩
      rw [getLast?_of_suffix hsuf2 hJ] at h
      exact ih (fun w3 h3 => hne w3 (List.mem_cons_of_mem _ h3))
        (fun w3 h3 => hsf w3 (List.mem_cons_of_mem _ h3)) b h

theorem trimSpace_eq_self_of_ends (t : Str)
    (hhead : ∀ b, t.head? = some b → goIsSpace b = false)
    (hlast : ∀ b, t.getLast? = some b → goIsSpace b = false) :
    trimSpace t = t := by
  have h1 : t.dropWhile goIsSpace = t := by
    apply dropWhile_eq_self_of_head_false
    intro b t' hbt
    exact hhead b (by rw [hbt]; rfl)
  rw [trimSpace, h1]
  have h2 : t.reverse.dropWhile goIsSpace = t.reverse := by
    apply dropWhile_eq_self_of_head_false
    intro b t' hbt
    apply hlast b
    rw [← List.head?_reverse, hbt]
    rfl
  rw [h2, List.reverse_reverse]

theorem trimSpace_joinSpace (W : List Str) (hne : ∀ w ∈ W, w ≠ [])
    (hsf : ∀ w ∈ W, ∀ c ∈ w, goIsSpace c = false) :
    trimSpace (joinSpace W) = joinSpace W :=
  trimSpace_eq_self_of_ends _ (joinSpace_head?_nospace W hne hsf)
    (joinSpace_getLast?_nospace W hne hsf)

theorem map_goToLower_id : ∀ (t : Str), (∀ c ∈ t, goToLower c = c) →
    goStringsToLower t = t := by
  intro t
  induction t with
  | nil => intro _; rfl
  | cons c t' ih =>
    intro h
    rw [goStringsToLower, List.map_cons, h c (List.mem_cons_self _ _)]
    have h2 := ih (fun c2 hc2 => h c2 (List.mem_cons_of_mem _ hc2))
    rw [goStringsToLower] at h2
    rw [h2]

theorem filterMap_keep_id (keep : Char → Bool) :
    ∀ (t : Str), (∀ c ∈ t, keep c = true ∧ goToLower c = c) →
      (t.filterMap (fun r => if goIsMn r then none
        else if keep r then some (goToLower r) else none)) = t := by
  intro t
  induction t with
  | nil => intro _; rfl
  | cons c t' ih =>
    intro h
    obtain ⟨hk, hl⟩ := h c (List.mem_cons_self _ _)
    have hfc : (if goIsMn c then none
        else if keep c then some (goToLower c) else none) = some (goToLower c) := by
      simp [goIsMn, hk]
    have step := @List.filterMap_cons_some Char Char
      (fun r => if goIsMn r then none else if keep r then some (goToLower r) else none)
      c t' (goToLower c) hfc
    rw [step, hl, ih (fun c2 hc2 => h c2 (List.mem_cons_of_mem _ hc2))]

theorem normKeyWith_joinSpace_fix (keep : Char → Bool) (W : List Str)
    (hne : ∀ w ∈ W, w ≠ []) (hsf : ∀ w ∈ W, ∀ c ∈ w, goIsSpace c = false)
    (hchars : ∀ c ∈ joinSpace W, keep c = true ∧ goToLower c = c) :
    normKeyWith keep (joinSpace W) = joinSpace W := by
  show joinSpace (fields ((goStringsToLower (trimSpace (joinSpace W))).filterMap
    (fun r => if goIsMn r then none else if keep r then some (goToLower r) else none)))
    = joinSpace W
  rw [trimSpace_joinSpace W hne hsf]
  rw [map_goToLower_id (joinSpace W) (fun c hc => (hchars c hc).2)]
  rw [filterMap_keep_id keep (joinSpace W) hchars]
  rw [fields_joinSpace W hne hsf]

theorem normKeyWith_idem (keep : Char → Bool)
    (hkeepLower : ∀ c, keep c = true → keep (goToLower c) = true)
    (hkeepSpace : keep ' ' = true) (s : Str) :
    normKeyWith keep (normKeyWith keep s) = normKeyWith keep s := by
  have key : ∀ (b : Str), (∀ c ∈ b, keep c = true ∧ goToLower c = c) →
      normKeyWith keep (joinSpace (fields b)) = joinSpace (fields b) := by
    intro b hbchars
    have hW : ∀ w ∈ fields b, w ≠ [] ∧ ∀ c ∈ w, c ∈ b ∧ goIsSpace c = false :=
      fun w hw => fields_words b w hw
    have hne : ∀ w ∈ fields b, w ≠ [] := fun w hw => (hW w hw).1
    have hsf : ∀ w ∈ fields b, ∀ c ∈ w, goIsSpace c = false :=
      fun w hw c hc => ((hW w hw).2 c hc).2
    have htchars : ∀ c ∈ joinSpace (fields b), keep c = true ∧ goToLower c = c := by
      intro c hc
      rcases mem_joinSpace _ c hc with ⟨w, hw, hcw⟩ | hsp
      · exact hbchars c ((hW w hw).2 c hcw).1
      · rw [hsp]
        exact ⟨hkeepSpace, by decide⟩
    exact normKeyWith_joinSpace_fix keep _ hne hsf htchars
  have hbchars : ∀ c ∈ (goStringsToLower (trimSpace s)).filterMap
      (fun r => if goIsMn r then none
        else if keep r then some (goToLower r) else none),
      keep c = true ∧ goToLower c = c := by
    intro c hc
    rcases List.mem_filterMap.mp hc with ⟨r, -, hfr⟩
    simp only [goIsMn, Bool.false_eq_true, if_false] at hfr
    by_cases hkr : keep r = true
    · rw [if_pos hkr] at hfr
      injection hfr with hfr
      rw [← hfr]
      exact ⟨hkeepLower r hkr, goToLower_idem r⟩
    · rw [if_neg hkr] at hfr
      cases hfr
  exact key _ hbchars

/-! ## Helper lemmas: the two resolution paths of `resolveTerm` -/

theorem resolveTerm_exact (db : DB) (raw : Str) (act : Str)
    (hq : normKey raw ≠ []) (hs : db.normIngToActual (normKey raw) = some act) :
    resolveTerm db raw = .mapped act := by
  simp only [resolveTerm]
  rw [if_neg hq, hs]

theorem resolveTerm_fuzzy (db : DB) (raw : Str)
    (hq : normKey raw ≠ []) (hmiss : db.normIngToActual (normKey raw) = none) :
    resolveTerm db raw
      = (if (bestCand db (normKey raw)).1 ≠ [] ∧ (bestCand db (normKey raw)).2 ≤ 5
         then .mapped (bestCand db (normKey raw)).1 else .unknown) := by
  simp only [resolveTerm]
  rw [if_neg hq, hmiss]

theorem load_allIngredients_sorted (records : List (List Str)) (db : DB)
    (h : loadCSV (.ok records) = .ok db) : List.Sorted strLeP db.allIngredients := by
  obtain ⟨-, -, hall, -, -⟩ := loadCSV_ok_fields records db h
  rw [hall]
  exact List.sorted_insertionSort strLeP _

theorem getD_eq_get_of_lt (l : List Recipe) (n : Nat) (h : n < l.length) :
    l.getD n default = l.get ⟨n, h⟩ := by
  rw [List.getD_eq_getElem?_getD, List.getElem?_eq_getElem h, List.get_eq_getElem]
  rfl

/-! ## Concrete catalogs for counterexamples and witnesses -/

def saltS : Str := "Salt".data

def pepperS : Str := "Pepper".data

def sugarS : Str := "Sugar".data

def out1S : Str := "Out1".data

def out2S : Str := "Out2".data

def ghostS : Str := "Ghost".data

def plusS : Str := "+".data

/-- The five required header cells of a recipe CSV. -/
def exHdr : List Str :=
  ["input1_name".data, "input2_name".data, "input3_name".data,
   "output_name".data, "output_qty".data]

/-- Two recipes sharing the ingredient "Salt" but differing in their second
ingredient (the spec's concrete scenario 5). -/
def exRecords : List (List Str) :=
  [exHdr,
   [saltS, pepperS, "".data, out1S, "1".data],
   [saltS, sugarS, "".data, out2S, "2".data]]

/-- The catalog loaded from `exRecords`. -/
def exDB : DB :=
  match loadCSV (.ok exRecords) with
  | .ok db => db
  | .error _ => default

/-- A catalog whose single ingredient, the rune plus, has an empty normalized
key (plus is a Unicode symbol, not punctuation, so `normKey` drops it). -/
def plusRecords : List (List Str) :=
  [exHdr, [plusS, "".data, "".data, out1S, "1".data]]

/-- The catalog loaded from `plusRecords`. -/
def plusDB : DB :=
  match loadCSV (.ok plusRecords) with
  | .ok db => db
  | .error _ => default

/-- A source with one malformed data row (inputs but an empty output name) and
one kept row whose quantity cell does not parse. -/
def mixedRecords : List (List Str) :=
  [exHdr,
   [ghostS, "".data, "".data, "".data, "1".data],
   [saltS, "".data, "".data, out1S, "abc".data]]

/-- The catalog loaded from `mixedRecords`. -/
def mixedDB : DB :=
  match loadCSV (.ok mixedRecords) with
  | .ok db => db
  | .error _ => default

/-- The recipe list of a load, when it succeeds. -/
def loadRecipes? (src : Except String (List (List Str))) : Option (List Recipe) :=
  match loadCSV src with
  | .ok db => some db.recipes
  | .error _ => none

/-- A raw fuzzy query with a typo. -/
def wRawS : Str := "saltt".data

/-- A hand-built catalog whose normalized lookup is empty, forcing the fuzzy
path for every term. -/
def wDB : DB :=
  { recipes := []
    allIngredients := [pepperS, saltS]
    ingIndex := fun _ => []
    normIngToActual := fun _ => none }

/-! ## Claim theorems -/

/-- C1 counterexample: with only "Salt" supplied, `suggest` on the two-recipe
catalog returns two recipes, and a returned recipe lists an ingredient
("Pepper") that is not among the supplied ones — so the returned recipes are
not those whose inputs form a subset of the supplied set, and the concrete
scenario does not return the empty list. -/
theorem C1_counterexample :
    (DB.suggest exDB [saltS]).length = 2
    ∧ ∃ r ∈ DB.suggest exDB [saltS], ∃ ing ∈ r.inputs, ing ∉ [saltS] := by
  decide

/-- C1 (amended): for a loaded catalog and a non-empty resolved ingredient
list, `suggest` returns exactly the recipes that list EVERY supplied
ingredient among their inputs — the supplied set must be a subset of the
recipe inputs, not the other way around. -/
theorem C1_suggest_characterization (records : List (List Str)) (db : DB)
    (all : List Str) (r : Recipe)
    (h : loadCSV (.ok records) = .ok db) (hne : all ≠ []) :
    r ∈ DB.suggest db all
      ↔ ∃ i, ∃ hi : i < db.recipes.length,
          db.recipes.get ⟨i, hi⟩ = r ∧ ∀ ing ∈ all, ing ∈ r.inputs := by
  rw [mem_suggest db all hne r]
  constructor
  · rintro ⟨ix, hall, hr⟩
    obtain ⟨ing0, hing0⟩ := List.exists_mem_of_ne_nil all hne
    obtain ⟨hx, -⟩ := (load_ingIndex_iff records db h ing0 ix).mp (hall ing0 hing0)
    refine ⟨ix, hx, ?_, ?_⟩
    · rw [← getD_eq_get_of_lt db.recipes ix hx]
      exact hr
    · intro ing hing
      obtain ⟨hx2, hmem⟩ := (load_ingIndex_iff records db h ing ix).mp (hall ing hing)
      rw [← hr, getD_eq_get_of_lt db.recipes ix hx2]
      exact hmem
  · rintro ⟨i, hi, hget, hall⟩
    refine ⟨i, ?_, ?_⟩
    · intro ing hing
      refine (load_ingIndex_iff records db h ing i).mpr ⟨hi, ?_⟩
      rw [hget]
      exact hall ing hing
    · rw [getD_eq_get_of_lt db.recipes i hi]
      exact hget

/-- C1 witness: the first example recipe (which also needs "Pepper") is
returned when only "Salt" is supplied. -/
theorem C1_witness :
    (⟨[saltS, pepperS], out1S, 1⟩ : Recipe) ∈ DB.suggest exDB [saltS] := by
  refine (C1_suggest_characterization exRecords exDB [saltS]
    ⟨[saltS, pepperS], out1S, 1⟩ rfl (by decide)).mpr ?_
  exact ⟨0, by decide, by decide, by decide⟩

/-- C2 counterexample: growing the supplied set from ["Salt"] to
["Salt", "Pepper"] LOSES the second recipe — the suggestion set shrinks
rather than growing, refuting monotonicity in the claimed direction. -/
theorem C2_counterexample :
    (∀ x ∈ [saltS], x ∈ [saltS, pepperS])
    ∧ (⟨[saltS, sugarS], out2S, 2⟩ : Recipe) ∈ DB.suggest exDB [saltS]
    ∧ (⟨[saltS, sugarS], out2S, 2⟩ : Recipe) ∉ DB.suggest exDB [saltS, pepperS] := by
  decide

/-- C2 (amended): `suggest` is ANTITONE in the supplied set — every recipe
suggested for a set is also suggested for any non-empty subset of it — and
the empty supplied set yields the empty suggestion list. -/
theorem C2_suggest_antitone (db : DB) (S S2 : List Str) (r : Recipe) :
    (S2 ≠ [] → (∀ x ∈ S2, x ∈ S) → r ∈ DB.suggest db S → r ∈ DB.suggest db S2)
    ∧ DB.suggest db [] = [] := by
  constructor
  · intro hne hsub hr
    by_cases hS : S = []
    · subst hS
      obtain ⟨x, hx⟩ := List.exists_mem_of_ne_nil S2 hne
      exact absurd (hsub x hx) (List.not_mem_nil x)
    · obtain ⟨ix, hall, hgetd⟩ := (mem_suggest db S hS r).mp hr
      exact (mem_suggest db S2 hne r).mpr
        ⟨ix, fun ing hing => hall ing (hsub ing hing), hgetd⟩
  · rfl

/-- C2 witness: the first example recipe, suggested for the larger set
["Salt", "Pepper"], stays suggested for the subset ["Salt"]. -/
theorem C2_witness :
    (⟨[saltS, pepperS], out1S, 1⟩ : Recipe) ∈ DB.suggest exDB [saltS] :=
  (C2_suggest_antitone exDB [saltS, pepperS] [saltS]
    ⟨[saltS, pepperS], out1S, 1⟩).1 (by decide) (by decide) (by decide)

/-- C3 counterexample: a header-only CSV (zero data rows) loads successfully
with an empty recipe list, instead of failing as the claim states. -/
theorem C3_counterexample : loadRecipes? (.ok [exHdr]) = some [] := by
  decide

/-- C3 (amended): loading succeeds exactly when the reader delivered a
non-empty record list whose first row contains every required column; a file
with a header row but zero data rows therefore loads fine, and errors arise
only from a read failure, zero total records, or a missing required column. -/
theorem C3_load_error_characterization (src : Except String (List (List Str))) :
    (∃ db, loadCSV src = .ok db)
      ↔ ∃ records, src = .ok records ∧ records ≠ []
          ∧ ∀ name ∈ requiredCols, (colFn (records.headD []) name).isSome :=
  loadCSV_ok_iff src

/-- C3 witness: the two-row example source satisfies the amended
characterization, hence loads. -/
theorem C3_witness : ∃ db, loadCSV (.ok exRecords) = .ok db :=
  (C3_load_error_characterization (.ok exRecords)).mpr
    ⟨exRecords, rfl, by decide, by decide⟩

/-- C4: when a term misses the exact lookup, the resolver scores every
catalog ingredient (doubled Levenshtein distance, halved on a substring hit),
keeps the first strict minimum in catalog order, and maps the term iff that
minimum is at most 2.5 (five half-units); for a loaded catalog the candidate
order is the lexicographically sorted ingredient list. -/
theorem C4_fuzzy_scoring :
    (∀ (db : DB) (raw : Str),
      normKey raw ≠ [] →
      db.normIngToActual (normKey raw) = none →
      db.allIngredients ≠ [] →
      [] ∉ db.allIngredients →
      (∀ c ∈ db.allIngredients, scoreQ (normKey raw) (normKey c) < maxFloat64Score) →
      ∃ i, ∃ hi : i < db.allIngredients.length,
        (∀ c ∈ db.allIngredients,
          scoreQ (normKey raw) (normKey (db.allIngredients.get ⟨i, hi⟩))
            ≤ scoreQ (normKey raw) (normKey c))
        ∧ (∀ j, ∀ hj : j < db.allIngredients.length, j < i →
            scoreQ (normKey raw) (normKey (db.allIngredients.get ⟨i, hi⟩))
              < scoreQ (normKey raw) (normKey (db.allIngredients.get ⟨j, hj⟩)))
        ∧ resolveTerm db raw
            = (if scoreQ (normKey raw) (normKey (db.allIngredients.get ⟨i, hi⟩)) ≤ 5
               then TermResult.mapped (db.allIngredients.get ⟨i, hi⟩)
               else TermResult.unknown))
    ∧ ∀ (records : List (List Str)) (db : DB),
        loadCSV (.ok records) = .ok db → List.Sorted strLeP db.allIngredients := by
  constructor
  · intro db raw hq hmiss hne hnil hbound
    have hcands : (db.allIngredients.map (fun ing => (normKey ing, ing))).length
        = db.allIngredients.length := List.length_map _ _
    rcases bestFold_spec (normKey raw)
        (db.allIngredients.map (fun ing => (normKey ing, ing))) [] maxFloat64Score with
      ⟨heq, hall⟩ | ⟨i, h, heq, hlt, hmin, hfirst⟩
    · obtain ⟨c0, hc0⟩ := List.exists_mem_of_ne_nil db.allIngredients hne
      have hb := hall (normKey c0, c0) (List.mem_map.mpr ⟨c0, hc0, rfl⟩)
      exact absurd hb (not_le.mpr (hbound c0 hc0))
    · have hi : i < db.allIngredients.length := by
        rw [← hcands]
        exact h
      have hget : (db.allIngredients.map (fun ing => (normKey ing, ing))).get ⟨i, h⟩
          = (normKey (db.allIngredients.get ⟨i, hi⟩), db.allIngredients.get ⟨i, hi⟩) := by
        rw [List.get_map]
      refine ⟨i, hi, ?_, ?_, ?_⟩
      · intro c hc
        have hm := hmin (normKey c, c) (List.mem_map.mpr ⟨c, hc, rfl⟩)
        rw [hget] at hm
        exact hm
      · intro j hj hji
        have hj2 : j < (db.allIngredients.map (fun ing => (normKey ing, ing))).length := by
          rw [hcands]
          exact hj
        have hf := hfirst j hj2 hji
        have hgetj : (db.allIngredients.map (fun ing => (normKey ing, ing))).get ⟨j, hj2⟩
            = (normKey (db.allIngredients.get ⟨j, hj⟩), db.allIngredients.get ⟨j, hj⟩) := by
          rw [List.get_map]
        rw [hget, hgetj] at hf
        exact hf
      · have hbc : bestCand db (normKey raw)
            = (db.allIngredients.get ⟨i, hi⟩,
               scoreQ (normKey raw) (normKey (db.allIngredients.get ⟨i, hi⟩))) := by
          rw [bestCand, heq, hget]
        have hne2 : db.allIngredients.get ⟨i, hi⟩ ≠ [] := by
          intro hbad
          exact hnil (hbad ▸ List.get_mem db.allIngredients i hi)
        by_cases hsc : scoreQ (normKey raw) (normKey (db.allIngredients.get ⟨i, hi⟩)) ≤ 5
        · rw [resolveTerm_fuzzy db raw hq hmiss, hbc, if_pos ⟨hne2, hsc⟩, if_pos hsc]
        · rw [resolveTerm_fuzzy db raw hq hmiss, hbc, if_neg ?_, if_neg hsc]
          intro hcon
          exact hsc hcon.2
  · exact load_allIngredients_sorted

/-- C4 witness: on a two-ingredient catalog with an empty lookup, the typo
"saltt" resolves through the fuzzy path. -/
theorem C4_witness :
    ∃ i, ∃ hi : i < wDB.allIngredients.length,
      (∀ c ∈ wDB.allIngredients,
        scoreQ (normKey wRawS) (normKey (wDB.allIngredients.get ⟨i, hi⟩))
          ≤ scoreQ (normKey wRawS) (normKey c))
      ∧ (∀ j, ∀ hj : j < wDB.allIngredients.length, j < i →
          scoreQ (normKey wRawS) (normKey (wDB.allIngredients.get ⟨i, hi⟩))
            < scoreQ (normKey wRawS) (normKey (wDB.allIngredients.get ⟨j, hj⟩)))
      ∧ resolveTerm wDB wRawS
          = (if scoreQ (normKey wRawS) (normKey (wDB.allIngredients.get ⟨i, hi⟩)) ≤ 5
             then TermResult.mapped (wDB.allIngredients.get ⟨i, hi⟩)
             else TermResult.unknown) :=
  C4_fuzzy_scoring.1 wDB wRawS (by decide) rfl (by decide) (by decide) (by decide)

/-- C5 counterexample: the catalog ingredient "+" has an EMPTY normalized key
(a Unicode symbol is neither letter, number, space nor punctuation), so the
term "+" — whose normalized key trivially equals that of the catalog entry —
is silently dropped instead of being mapped by the exact-match rule. -/
theorem C5_counterexample :
    plusS ∈ plusDB.allIngredients
    ∧ normKey plusS = []
    ∧ resolveTerm plusDB plusS = TermResult.dropped := by
  decide

/-- C5 (amended): for a loaded catalog and a term with a NON-EMPTY normalized
key equal to some catalog ingredient key, the resolver takes the exact-match
branch before any fuzzy scoring: it returns the catalog ingredient stored in
the normalized-lookup table under that key (on key collisions, the one from
the last-built entry), which itself has the same normalized key. -/
theorem C5_exact_match_precedence (records : List (List Str)) (db : DB)
    (raw ing : Str) (h : loadCSV (.ok records) = .ok db)
    (hing : ing ∈ db.allIngredients) (heq : normKey raw = normKey ing)
    (hne : normKey raw ≠ []) :
    ∃ act, db.normIngToActual (normKey raw) = some act
      ∧ act ∈ db.allIngredients
      ∧ normKey act = normKey raw
      ∧ resolveTerm db raw = .mapped act := by
  have hpres := load_norm_present records db h ing hing
  rw [← heq] at hpres
  cases hsome : db.normIngToActual (normKey raw) with
  | none => exact absurd hsome hpres
  | some act =>
    obtain ⟨hmem, hk⟩ := load_norm_some records db h _ act hsome
    exact ⟨act, rfl, hmem, hk, resolveTerm_exact db raw act hne hsome⟩

/-- C5 witness: the term "SALT " (case and trailing space differ) is mapped
to the catalog ingredient "Salt" through the exact-lookup branch. -/
theorem C5_witness :
    ∃ act, exDB.normIngToActual (normKey ("SALT ".data)) = some act
      ∧ act ∈ exDB.allIngredients
      ∧ normKey act = normKey ("SALT ".data)
      ∧ resolveTerm exDB ("SALT ".data) = .mapped act :=
  C5_exact_match_precedence exRecords exDB ("SALT ".data) saltS rfl
    (by decide) (by decide) (by decide)

/-- C6: the rune-based Levenshtein distance is symmetric, zero exactly on
equal strings, and degenerates to the length of the other string when one
argument is empty. -/
theorem C6_lev_metric_laws (a b : Str) :
    lev a b = lev b a
    ∧ lev a a = 0
    ∧ (lev a b = 0 ↔ a = b)
    ∧ lev [] a = a.length := by
  refine ⟨?_, ?_, ⟨?_, ?_⟩, ?_⟩
  · rw [lev_eq_levRec, lev_eq_levRec, levRec_symm]
  · simp [lev]
  · intro h
    rw [lev_eq_levRec] at h
    exact List.reverse_injective (levRec_eq_zero _ _ h)
  · intro h
    subst h
    simp [lev]
  · rw [lev_eq_levRec]
    simp [levRec]

/-- C7: one pass of the resolver classifies every term — the mapped list is
the order-preserving deduplication of the successfully resolved terms, the
unknown list keeps exactly the terms the resolver could not place, and a term
is silently dropped precisely when its normalized key is empty. -/
theorem C7_resolver_totality (db : DB) (inputs : List Str) :
    mapUserIngredients db inputs
      = (dedupKeepFirst [] (inputs.filterMap (mappedResult db)),
         inputs.filter (fun raw => decide (resolveTerm db raw = .unknown)))
    ∧ ∀ raw : Str, (resolveTerm db raw = .dropped ↔ normKey raw = []) :=
  ⟨mapUserIngredients_eq db inputs, fun raw => resolveTerm_dropped_iff db raw⟩

/-- C8: loading succeeds whenever the header is intact regardless of the data
rows; the kept recipes are exactly the parses of the data rows, a row with an
empty output name or no non-empty inputs is skipped, a quantity cell that
does not parse to a positive integer falls back to 1, and the ingredient
catalog collects exactly the inputs of the kept recipes. -/
theorem C8_row_level_policy :
    (∀ records : List (List Str), records ≠ [] →
      (∀ name ∈ requiredCols, (colFn (records.headD []) name).isSome) →
      ∃ db, loadCSV (.ok records) = .ok db)
    ∧ (∀ (records : List (List Str)) (db : DB), loadCSV (.ok records) = .ok db →
        db.recipes = (records.drop 1).filterMap (parseRow (colFn (records.headD []))))
    ∧ (∀ (col : Str → Option Nat) (row : List Str),
        rowOutput col row = [] ∨ rowInputs col row = [] → parseRow col row = none)
    ∧ (∀ (col : Str → Option Nat) (row : List Str),
        ((cellAt col row outputQtyCol).bind goAtoi = none
          ∨ ∃ q, (cellAt col row outputQtyCol).bind goAtoi = some q ∧ q ≤ 0) →
        rowQty col row = 1)
    ∧ ∀ (records : List (List Str)) (db : DB) (ing : Str),
        loadCSV (.ok records) = .ok db →
        (ing ∈ db.allIngredients ↔ ∃ rec ∈ db.recipes, ing ∈ rec.inputs) := by
  refine ⟨?_, ?_, ?_, ?_, ?_⟩
  · intro records h0 hcols
    exact (loadCSV_ok_iff (.ok records)).mpr ⟨records, rfl, h0, hcols⟩
  · intro records db h
    exact (loadCSV_ok_fields records db h).2.1
  · exact parseRow_none_of_malformed
  · intro col row hbad
    rw [rowQty]
    rcases hbad with h | ⟨q, hq, hq0⟩
    · rw [h]
    · rw [hq]
      show (if 0 < q then q else 1) = 1
      rw [if_neg (not_lt.mpr hq0)]
  · intro records db ing h
    exact load_allIngredients_iff records db h ing

/-- C9: key normalization is idempotent, both for the punctuation-keeping
variant of the embedded copy and the punctuation-dropping variant of the main
program. -/
theorem C9_normKey_idempotent (s : Str) :
    normKey (normKey s) = normKey s ∧ normKeyND (normKeyND s) = normKeyND s :=
  ⟨normKeyWith_idem keepPunct keepPunct_goToLower (by decide) s,
   normKeyWith_idem keepNoPunct keepNoPunct_goToLower (by decide) s⟩

/-- C10: on a loaded catalog, every name in the mapped list returned by the
resolver is an exact element of the ingredient catalog — the exact branch
returns a stored catalog ingredient, and the fuzzy branch returns the second
component of a candidate pair, which is a catalog ingredient. -/
theorem C10_mapped_names_canonical (records : List (List Str)) (db : DB)
    (inputs : List Str) (name : Str)
    (h : loadCSV (.ok records) = .ok db)
    (hmem : name ∈ (mapUserIngredients db inputs).1) :
    name ∈ db.allIngredients := by
  rw [mapUserIngredients_eq] at hmem
  have hm2 : name ∈ dedupKeepFirst [] (inputs.filterMap (mappedResult db)) := hmem
  rw [mem_dedupKeepFirst] at hm2
  rcases List.mem_filterMap.mp hm2.1 with ⟨raw, -, hres⟩
  rw [mappedResult] at hres
  cases hrt : resolveTerm db raw with
  | dropped =>
    rw [hrt] at hres
    cases hres
  | unknown =>
    rw [hrt] at hres
    cases hres
  | mapped act =>
    rw [hrt] at hres
    injection hres with hres
    subst hres
    by_cases hq : normKey raw = []
    · have hd := (resolveTerm_dropped_iff db raw).mpr hq
      rw [hd] at hrt
      cases hrt
    · cases hsome : db.normIngToActual (normKey raw) with
      | some act2 =>
        have he := resolveTerm_exact db raw act2 hq hsome
        rw [he] at hrt
        injection hrt with hrt2
        rw [← hrt2]
        exact (load_norm_some records db h _ act2 hsome).1
      | none =>
        have hf := resolveTerm_fuzzy db raw hq hsome
        rw [hf] at hrt
        by_cases hcond : (bestCand db (normKey raw)).1 ≠ []
            ∧ (bestCand db (normKey raw)).2 ≤ 5
        · rw [if_pos hcond] at hrt
          injection hrt with hrt2
          rcases bestFold_fst_mem (normKey raw)
              (db.allIngredients.map (fun ing => (normKey ing, ing)))
              [] maxFloat64Score with hb | hb
          · exact absurd hb hcond.1
          · rw [← hrt2]
            have hb2 : (bestCand db (normKey raw)).1
                ∈ (db.allIngredients.map (fun ing => (normKey ing, ing))).map Prod.snd :=
              hb
            rw [List.map_map] at hb2
            simpa using hb2
        · rw [if_neg hcond] at hrt
          cases hrt

/-- C10 witness: the typo "saltt", resolved against the loaded example
catalog, yields the canonical catalog name "Salt". -/
theorem C10_witness : saltS ∈ exDB.allIngredients :=
  C10_mapped_names_canonical exRecords exDB ["saltt".data] saltS rfl (by decide)
